import Mathlib

/-!
Verification of the rst_formatter repository (src/rst_formatter.py).

Shallow embedding: Python strings become `List Char`, the translator state of
`RstTranslator` becomes an explicit structure, fallible operations return
`Except String`.  Every definition mirrors the corresponding function of the
source file; source line numbers are given in the doc comments.
-/

set_option maxRecDepth 4000

/-- Python strings are embedded as lists of characters. -/
abbrev Str := List Char

/-- Shorthand for embedding a Lean string literal. -/
def str (s : String) : Str := s.toList

/-- Characters the regex class `[ \n]` of `visit_Text` matches. -/
def isSpaceNl (c : Char) : Bool := c = ' ' ∨ c = '\n'

/-- Split on maximal runs of characters satisfying `p`, keeping the (possibly
empty) tokens at both edges, exactly as Python's `re.split` with a
one-or-more character-class pattern does. -/
def splitRunsBy (p : Char → Bool) : Str → List Str
  | [] => [[]]
  | c :: rest =>
    let r := splitRunsBy p rest
    if p c then
      match rest with
      | [] => [] :: r
      | d :: _ => if p d then r else [] :: r
    else
      match r with
      | h :: t => (c :: h) :: t
      | [] => [[c]]

/-- `re.split(r"[ \n]+", text)` (rst_formatter.py line 242). -/
def reSplitSpaceNl : Str → List Str := splitRunsBy isSpaceNl

/-- Split a string into its lines at `'\n'`, like Python's `s.split("\n")`. -/
def splitNl (s : Str) : List Str := s.splitOn '\n' 

/-- Python list indexing `l[i]` with negative-index wrap-around;
`none` models an `IndexError`. -/
def pyGet (l : List Str) (i : Int) : Option Str :=
  if 0 ≤ i then l.get? i.toNat
  else if -i ≤ (l.length : Int) then l.get? (l.length - (-i).toNat)
  else none

/-- `RstFormatterConfig` (rst_formatter.py lines 26-45); only the fields the
rendering engine and the normalization passes read are embedded
(`no_line_break_regexes` and `print_node_tree` only configure the external
parser / debugging). -/
structure RstFormatterConfig where
  maxLineLength : Nat
  titleOrder : List Str
  newlineAfterTitle : Int
  newlineBulletList : Bool
deriving DecidableEq

/-- The default configuration (`max_line_length=120`,
`title_order=["==", "=", "-", "^"]`, `newline_after_title=2`,
`newline_bullet_list=False`). -/
def defaultConfig : RstFormatterConfig :=
  { maxLineLength := 120
    titleOrder := [str "==", str "=", str "-", str "^"]
    newlineAfterTitle := 2
    newlineBulletList := false }

/-- The mutable state of `RstTranslator` (rst_formatter.py lines 127-145).
`output` is the concatenation of the Python fragment list (the source joins it
with `"".join` on return, so a single string is an equivalent embedding);
`hold_space` keeps the innermost non-breakable accumulation list at the head
(the source keeps it last). -/
structure TState where
  output : Str
  hold_space : List (List Str)
  line_length : Nat
  indent_level : Int
  section_depth : Int
  bullet_char : List Str
  need_newline_before_paragraph_start : Bool
deriving DecidableEq

/-- The state a fresh `RstTranslator` starts from. -/
def initState : TState :=
  { output := []
    hold_space := []
    line_length := 0
    indent_level := 0
    section_depth := 0
    bullet_char := []
    need_newline_before_paragraph_start := false }

/-- The indent prefix `self.indent * self.indent_level` with `indent = "  "`
(two spaces); a negative level yields the empty string as in Python. -/
def indentStr (level : Int) : Str := List.replicate (2 * level).toNat ' '

/-- `RstTranslator._append_word_wrap` (rst_formatter.py lines 147-161). -/
def append_word_wrap (cfg : RstFormatterConfig) : TState → List Str → TState
  | st, [] => st
  | st, w :: ws =>
    if w = [] then append_word_wrap cfg st ws
    else
      let st1 :=
        if cfg.maxLineLength < st.line_length + 1 + w.length then
          { st with output := st.output ++ ['\n'], line_length := 0 }
        else st
      let st2 :=
        if st1.line_length = 0 then
          let ind := indentStr st1.indent_level
          { st1 with
            output := st1.output ++ ind ++ w
            line_length := st1.line_length + ind.length + w.length }
        else
          let sep : Str := if w.head? = some ',' ∨ w.head? = some '.' then [] else [' ']
          { st1 with
            output := st1.output ++ sep ++ w
            line_length := st1.line_length + 1 + w.length }
      append_word_wrap cfg st2 ws

/-- `RstTranslator.append` (rst_formatter.py lines 163-175): route text to the
output (word-wrapped) or to the innermost hold space; requesting newlines
inside a non-breakable element raises `NotImplementedError`. -/
def appendT (cfg : RstFormatterConfig) (st : TState) (text : Option (List Str))
    (newlines : Nat) : Except String TState :=
  match st.hold_space with
  | [] =>
    let st1 := match text with
      | some ws => append_word_wrap cfg st ws
      | none => st
    let st2 :=
      if 0 < newlines then
        { st1 with output := st1.output ++ List.replicate newlines '\n', line_length := 0 }
      else st1
    .ok st2
  | h :: t =>
    if newlines ≠ 0 then .error "NotImplementedError"
    else
      match text with
      | none => .ok st
      | some [] => .ok st
      | some ws => .ok { st with hold_space := (h ++ ws) :: t }

/-- `RstTranslator.enter_nonbreakable_element` (line 177-179). -/
def enter_nonbreakable_element (st : TState) : TState :=
  { st with hold_space := [] :: st.hold_space }

/-- `RstTranslator.exit_nonbreakable_element` (line 181-183) with the default
`join_char = " "` (the only join character the source ever uses); `none`
models popping an empty stack. -/
def exit_nonbreakable_element (st : TState) : Option (Str × TState) :=
  match st.hold_space with
  | [] => none
  | h :: t => some (List.intercalate [' '] h, { st with hold_space := t })

/-- `RstTranslator.append_possible_newline` (lines 185-189). -/
def append_possible_newline (cfg : RstFormatterConfig) (st : TState) :
    Except String TState :=
  if st.need_newline_before_paragraph_start then
    (appendT cfg st none 1).map
      (fun s => { s with need_newline_before_paragraph_start := false })
  else .ok st

/-- Characters Python's `\s` matches on ASCII input. -/
def isPyWs (c : Char) : Bool :=
  c = ' ' ∨ c = '\t' ∨ c = '\n' ∨ c = '\r' ∨ c = Char.ofNat 11 ∨ c = Char.ofNat 12

/-- Python `str.strip()`. -/
def pyStrip (s : Str) : Str :=
  ((s.dropWhile isPyWs).reverse.dropWhile isPyWs).reverse

/-- Python `str.split()` with no arguments: split on whitespace runs,
dropping empty tokens. -/
def pySplit (s : Str) : List Str := (splitRunsBy isPyWs s).filter (· ≠ [])

/-- Decide whether `\s*[-*] ` matches at the start of `s` (the greedy
whitespace run, then a bullet character, then a space) — the part of the
bullet-list regexes of `format_rst` after the literal colon-newline part. -/
def bulletScan : Str → Bool
  | c :: rest =>
    if isPyWs c then bulletScan rest
    else if c = '-' ∨ c = '*' then
      match rest with
      | ' ' :: _ => true
      | _ => false
    else false
  | [] => false

/-- `re.sub(r":\n(\s*[-*] )", r":\n\n\1", input_rst)` — the bullet-list blank
line insertion of `format_rst` (rst_formatter.py line 416).  `re.sub` scans
for the next match and continues after the matched region; since the matched
group (whitespace then `[-*] `) contains no colon, no new match can begin
inside it, so continuing the scan right after the inserted newline (as this
structurally recursive version does) produces the same result. -/
def preBulletFix : Str → Str
  | [] => []
  | ':' :: '\n' :: rest =>
    if bulletScan rest then ':' :: '\n' :: '\n' :: preBulletFix rest
    else ':' :: preBulletFix ('\n' :: rest)
  | c :: rest => c :: preBulletFix rest

/-- `re.sub(r":\n\n(\s*[-*] )", r":\n\1", out)` — the inverse bullet-list
substitution of `format_rst` (rst_formatter.py line 454), with the same
continue-after-the-colon-newline scan as `preBulletFix`. -/
def postBulletFix : Str → Str
  | [] => []
  | ':' :: '\n' :: '\n' :: rest =>
    if bulletScan rest then ':' :: '\n' :: postBulletFix rest
    else ':' :: postBulletFix ('\n' :: '\n' :: rest)
  | c :: rest => c :: postBulletFix rest

/-- `re.sub(r"([^\n])(\n.. )", r"\1\n\2", input_rst)` — the "fix case of
forgetting a newline before a directive" substitution of `format_rst`
(rst_formatter.py line 419).  Note the two `.` in the pattern are unescaped:
they match any character except `'\n'`, not only literal dots. -/
def directiveNewlineFix : Str → Str
  | a :: '\n' :: x :: y :: ' ' :: rest =>
    if a ≠ '\n' ∧ x ≠ '\n' ∧ y ≠ '\n' then
      a :: '\n' :: '\n' :: x :: y :: ' ' :: directiveNewlineFix rest
    else a :: directiveNewlineFix ('\n' :: x :: y :: ' ' :: rest)
  | c :: rest => c :: directiveNewlineFix rest
  | [] => []

/-- The union of the characters appearing anywhere in `title_order`
(`"".join(set("".join(config.title_order)))`, rst_formatter.py line 404);
membership in this list is membership in the regex character class. -/
def headingChars (cfg : RstFormatterConfig) : Str := cfg.titleOrder.flatten

/-- The `([c]){3,}` tail: consume the rest of the line, all characters from
the class, returning the last repetition (the regex group capture). -/
def headingRunLast (cs : Str) (prev : Char) : Str → Option Char
  | [] => some prev
  | c :: rest => if c ∈ cs then headingRunLast cs c rest else none

/-- Anchored match of `^([c]){3,}$` on one line, returning the capture of the
group (the last repetition) on success. -/
def matchHeadingLine (cs : Str) : Str → Option Char
  | a :: b :: rest2 =>
    match rest2 with
    | [] => none
    | _ :: _ => if a ∈ cs ∧ b ∈ cs then headingRunLast cs b rest2 else none
  | _ => none

/-- Replacement `\1\1\1\1` on one line when the heading regex matches. -/
def fixHeadingLine (cs : Str) (l : Str) : Str :=
  match matchHeadingLine cs l with
  | some c => List.replicate 4 c
  | none => l

/-- `fix_heading_line_length` (rst_formatter.py lines 397-407): the regex is
compiled with `re.MULTILINE` and anchored by `^`/`$`, so the substitution
acts on each `'\n'`-separated line independently. -/
def fix_heading_line_length (cfg : RstFormatterConfig) (s : Str) : Str :=
  List.intercalate ['\n'] ((splitNl s).map (fixHeadingLine (headingChars cfg)))

/-- `out.lstrip("\n").rstrip("\n")` (rst_formatter.py line 455). -/
def stripNlEdges (s : Str) : Str :=
  ((s.dropWhile (· = '\n')).reverse.dropWhile (· = '\n')).reverse

/-- The pre-parse text normalization performed by `format_rst`
(rst_formatter.py lines 415-421), in source order: bullet-list blank-line
insertion (unless `newline_bullet_list`), directive blank-line insertion,
heading line-length canonicalization. -/
def preNormalize (cfg : RstFormatterConfig) (s : Str) : Str :=
  let s1 := if cfg.newlineBulletList then s else preBulletFix s
  fix_heading_line_length cfg (directiveNewlineFix s1)

/-- The post-render text normalization performed by `format_rst`
(rst_formatter.py lines 453-455). -/
def postNormalize (cfg : RstFormatterConfig) (s : Str) : Str :=
  stripNlEdges (if cfg.newlineBulletList then s else postBulletFix s)

/-- Scan the field-name part of docutils' `field_marker` pattern
`:(?![: ])([^:\x7b0\x7d\\]*(?:\\.[^:\\]*)*)(?<! ):( +|$)`: consume characters up
to the first unescaped `':'` (backslash escapes the next character, which may
not be a newline); return the body and the text after the closing colon. -/
def scanFieldBody : Str → Option (Str × Str)
  | [] => none
  | ':' :: rest => some ([], rest)
  | '\\' :: c :: rest =>
    if c = '\n' then none
    else (scanFieldBody rest).map (fun p => ('\\' :: c :: p.1, p.2))
  | ['\\'] => none
  | c :: rest => (scanFieldBody rest).map (fun p => (c :: p.1, p.2))

/-- Anchored match of docutils' `Body.patterns["field_marker"]` regex
`:(?![: ])([^:\\]*(?:\\.[^:\\]*)*)(?<! ):( +|$)` against an option line
(the external constant `self.patterns["field_marker"]` used at
rst_formatter.py line 350).  Returns `(match.group(), rest)`: the whole
matched text — which includes the run of spaces after the closing colon when
present, and nothing after it when the line ends there — and the remainder
of the line (`indented[0][len(key):]`). -/
def fieldMarkerMatch (l : Str) : Option (Str × Str) :=
  match l with
  | ':' :: rest =>
    match rest with
    | [] => none
    | c0 :: _ =>
      if c0 = ':' ∨ c0 = ' ' then none
      else
        match scanFieldBody rest with
        | none => none
        | some (body, after) =>
          if body.getLast? = some ' ' then none
          else
            match after with
            | [] => some (':' :: (body ++ [':']), [])
            | ' ' :: _ =>
              some ((':' :: (body ++ [':'])) ++ after.takeWhile (· = ' '),
                after.dropWhile (· = ' '))
            | _ => none
  | _ => none

/-- Python slice `key[1:-2]` (rst_formatter.py line 357). -/
def pySlice1m2 (key : Str) : Str := (key.drop 1).dropLast.dropLast

/-- Python `dict` assignment `options[k] = v`: overwrite in place if the key
exists, otherwise append. -/
def dictInsert (d : List (Str × Str)) (k : Str) (v : Str) : List (Str × Str) :=
  if d.any (fun p => p.1 = k) then d.map (fun p => if p.1 = k then (k, v) else p)
  else d ++ [(k, v)]

/-- The option-collecting loop of `forgiving_parse_directive_block`
(rst_formatter.py lines 349-358). -/
def fpdOptionLoop : List Str → List (Str × Str) → List (Str × Str) × List Str
  | [], opts => (opts, [])
  | l :: rest, opts =>
    match fieldMarkerMatch l with
    | none => (opts, l :: rest)
    | some (key, value) => fpdOptionLoop rest (dictInsert opts (pySlice1m2 key) value)

/-- `while indented and len(indented[-1].strip()) == 0: indented.trim_end()`
(rst_formatter.py lines 360-361). -/
def dropTrailingBlank (ls : List Str) : List Str :=
  (ls.reverse.dropWhile (fun l => pyStrip l = [])).reverse

/-- `forgiving_parse_directive_block` (rst_formatter.py lines 341-366), on the
`indented` block (a list of lines); `none` models the `IndexError` Python
would raise on an empty block.  Returns `(arguments, options, content)`. -/
def forgiving_parse_directive_block (indented : List Str) :
    Option (List Str × List (Str × Str) × List Str) :=
  match indented with
  | [] => none
  | first :: rest =>
    let arguments := pySplit (pyStrip first)
    let (options, rem) := fpdOptionLoop rest []
    let rem2 := dropTrailingBlank rem
    let content := match rem2 with
      | l :: ls => if pyStrip l = [] then ls else l :: ls
      | [] => []
    some (arguments, options, content)

/-- Lexicographic order on Python strings (code-point comparison). -/
def strLt : Str → Str → Bool
  | [], [] => false
  | [], _ :: _ => true
  | _ :: _, [] => false
  | a :: as, b :: bs => if a = b then strLt as bs else decide (a < b)

/-- Insertion step of `sorted(node.options.items())`. -/
def insertSorted (p : Str × Str) : List (Str × Str) → List (Str × Str)
  | [] => [p]
  | q :: qs => if strLt p.1 q.1 then p :: q :: qs else q :: insertSorted p qs

/-- `sorted(node.options.items())` (rst_formatter.py line 289); the dict keys
are unique, so sorting by key alone matches Python's tuple ordering. -/
def sortOptions (l : List (Str × Str)) : List (Str × Str) := l.foldr insertSorted []

/-- The document-tree node kinds the renderer handles (docutils node classes,
§3 of the spec): `text` is `nodes.Text`; `nonbreakable` stands for any member
of `RstTranslator.non_breakable_nodes` (emphasis, strong, reference,
citation_reference, target-like inline spans, `NoLineBreakNode`), which are
all rendered identically through `unknown_visit`/`unknown_departure` from
their stored `rawsource`; `directive` is a `DirectivePlaceholder`;
`unknown` is any node kind without a visitor. -/
inductive RNode where
  | text (s : Str)
  | paragraph (kids : List RNode)
  | section (kids : List RNode)
  | title (kids : List RNode)
  | bulletList (bullet : Str) (kids : List RNode)
  | listItem (kids : List RNode)
  | target (rawsource : Str) (kids : List RNode)
  | citation (kids : List RNode)
  | label (kids : List RNode)
  | systemMessage (kids : List RNode)
  | directive (name : Str) (arguments : List Str) (options : List (Str × Str))
      (content : List Str)
  | nonbreakable (rawsource : Str) (kids : List RNode)
  | document (kids : List RNode)
  | transition
  | unknown

/-- `RstTranslator.depart_title` (rst_formatter.py lines 220-231):
pop the held title text, look up the separator characters for the current
section depth (an out-of-range depth raises
`RuntimeError("Not enough title characters defined in 'title_order'")`),
emit overline (for a two-character entry), title and underline, and request
a blank line after shallow headings. -/
def depart_title (cfg : RstFormatterConfig) (st : TState) : Except String TState :=
  match exit_nonbreakable_element st with
  | none => .error "pop from empty list"
  | some (titleText, st1) =>
    match pyGet cfg.titleOrder (st1.section_depth - 1) with
    | none => .error "Not enough title characters defined in title_order"
    | some sepChars =>
      match sepChars with
      | [] => .error "IndexError"
      | c :: cs => do
        let st2 ←
          if (c :: cs).length = 2 then
            appendT cfg st1 (some [List.replicate titleText.length c]) 1
          else pure st1
        let st3 ← appendT cfg st2 (some [titleText]) 1
        let st4 ← appendT cfg st3 (some [List.replicate titleText.length (cs.getLastD c)]) 1
        pure (if st4.section_depth ≤ cfg.newlineAfterTitle then
                { st4 with need_newline_before_paragraph_start := true }
              else st4)

/-- `RstTranslator.depart_target` (rst_formatter.py lines 195-208); `hasKids`
is `bool(node.children)`. -/
def depart_target (cfg : RstFormatterConfig) (raw : Str) (hasKids : Bool)
    (st : TState) : Except String TState :=
  match exit_nonbreakable_element st with
  | none => .error "pop from empty list"
  | some (_, st1) =>
    if raw.take 4 = str ".. _" then do
      let st2 ← append_possible_newline cfg st1
      let st3 ← appendT cfg st2 (some [raw]) 1
      pure { st3 with need_newline_before_paragraph_start := true }
    else if hasKids then appendT cfg st1 (some [raw]) 0
    else pure st1

/-- The option-emission loop of `visit_DirectivePlaceholder`
(rst_formatter.py lines 289-290). -/
def renderOptionLines (cfg : RstFormatterConfig) :
    List (Str × Str) → TState → Except String TState
  | [], st => pure st
  | (k, v) :: rest, st => do
    renderOptionLines cfg rest (← appendT cfg st (some [(':' :: k) ++ [':'], v]) 1)

/-- The content-emission loop of `visit_DirectivePlaceholder`
(rst_formatter.py lines 295-296). -/
def renderContentLines (cfg : RstFormatterConfig) :
    List Str → TState → Except String TState
  | [], st => pure st
  | l :: rest, st => do
    renderContentLines cfg rest (← appendT cfg st (some [l]) 1)

mutual

/-- `document.walkabout(visitor)` restricted to one node: dispatch the visit
method, walk the children (unless the visit raised `SkipChildren`, as
`visit_system_message` does), then dispatch the departure method.  Each arm
is the corresponding `visit_*`/`depart_*` pair of `RstTranslator`
(rst_formatter.py lines 191-323). -/
def visitNode (cfg : RstFormatterConfig) : RNode → TState → Except String TState
  | .text s, st => appendT cfg st (some (reSplitSpaceNl s)) 0
  | .paragraph kids, st => do
    let st1 ← append_possible_newline cfg st
    let st2 ← visitList cfg kids st1
    let st3 ← appendT cfg st2 none 1
    pure { st3 with need_newline_before_paragraph_start := true }
  | .section kids, st => do
    let st2 ← visitList cfg kids { st with section_depth := st.section_depth + 1 }
    pure { st2 with section_depth := st2.section_depth - 1 }
  | .title kids, st => do
    let st1 ← append_possible_newline cfg st
    let st2 ← visitList cfg kids (enter_nonbreakable_element st1)
    depart_title cfg st2
  | .bulletList bullet kids, st => do
    let st1 ←
      if st.bullet_char ≠ [] ∨ st.need_newline_before_paragraph_start then
        appendT cfg st none 1
      else pure st
    let st3 ← visitList cfg kids { st1 with bullet_char := bullet :: st1.bullet_char }
    pure { st3 with bullet_char := st3.bullet_char.tail }
  | .listItem kids, st =>
    match st.bullet_char with
    | [] => .error "IndexError"
    | b :: _ => do
      let st1 ← appendT cfg st (some [b]) 0
      let st3 ← visitList cfg kids
        { st1 with indent_level := st1.indent_level + 1,
                   need_newline_before_paragraph_start := false }
      pure { st3 with indent_level := st3.indent_level - 1 }
  | .target raw kids, st => do
    let st2 ← visitList cfg kids (enter_nonbreakable_element st)
    depart_target cfg raw (!kids.isEmpty) st2
  | .citation kids, st => do
    let st1 ← append_possible_newline cfg st
    let st2 ← appendT cfg st1 (some [str ".."]) 0
    let st3 ← visitList cfg kids st2
    pure { st3 with need_newline_before_paragraph_start := true }
  | .label kids, st => do
    let st2 ← visitList cfg kids (enter_nonbreakable_element st)
    match exit_nonbreakable_element st2 with
    | none => .error "pop from empty list"
    | some (t, st3) => appendT cfg st3 (some [('[' :: t) ++ [']']]) 0
  | .systemMessage _, st => pure st
  | .directive name args opts content, st => do
    let st1 ← append_possible_newline cfg st
    if st1.line_length ≠ 0 then .error "Directive found while indented."
    else do
      let st2 ← appendT cfg st1 (some ((str ".. " ++ name ++ str "::") :: args)) 1
      let st3 := { st2 with indent_level := st2.indent_level + 1 }
      let st4 ← renderOptionLines cfg (sortOptions opts) st3
      let st5 ←
        if opts ≠ [] ∧ content ≠ [] then appendT cfg st4 none 1
        else pure st4
      let st6 ← renderContentLines cfg content st5
      pure { st6 with indent_level := st6.indent_level - 1,
                      need_newline_before_paragraph_start := true }
  | .nonbreakable raw kids, st => do
    let st2 ← visitList cfg kids (enter_nonbreakable_element st)
    match exit_nonbreakable_element st2 with
    | none => .error "pop from empty list"
    | some (_, st3) => appendT cfg st3 (some [raw]) 0
  | .document kids, st => visitList cfg kids st
  | .transition, st => pure st
  | .unknown, st => .error "Unknown visit"
termination_by structural n => n

/-- Walk a list of sibling nodes in document order. -/
def visitList (cfg : RstFormatterConfig) : List RNode → TState → Except String TState
  | [], st => pure st
  | k :: ks, st => do visitList cfg ks (← visitNode cfg k st)
termination_by structural l => l

end

/-- `RstFormattingWriter.translate` (rst_formatter.py lines 334-338): walk the
tree from a fresh translator state and join the output fragments. -/
def render (cfg : RstFormatterConfig) (doc : RNode) : Except String Str :=
  (visitNode cfg doc initState).map (·.output)

/-- The rendering stage of `format_rst` followed by its post-normalization
(rst_formatter.py lines 445-455). -/
def renderFormatted (cfg : RstFormatterConfig) (doc : RNode) : Except String Str :=
  (render cfg doc).map (postNormalize cfg)

/-- `d`-fold section nesting around a node. -/
def nestSection : Nat → RNode → RNode
  | 0, n => n
  | d + 1, n => .section [nestSection d n]

/-- The pieces of global docutils state that `monkeypatch_directives_handler`
saves and restores: `directives._directives` (of some type `ρ`),
`Body.parse_directive_block` (of some type `π`), and everything else (`σ`). -/
structure DocutilsGlobals (ρ π σ : Type) where
  directivesReg : ρ
  parseDirectiveBlock : π
  other : σ

/-- `monkeypatch_directives_handler` (rst_formatter.py lines 369-394) wrapped
around a body, as `format_rst` uses it (lines 433-451): save the two globals,
install the patched values, run the body — which may itself read and write the
globals and may finish normally or with an exception — and restore the saved
values on both paths (the `try`/`finally` of the context manager). -/
def monkeypatch_directives_handler {ρ π σ α : Type} (patchedReg : ρ) (patchedParse : π)
    (body : DocutilsGlobals ρ π σ → Except String α × DocutilsGlobals ρ π σ)
    (g : DocutilsGlobals ρ π σ) : Except String α × DocutilsGlobals ρ π σ :=
  let saved1 := g.directivesReg
  let saved2 := g.parseDirectiveBlock
  let res := body { g with directivesReg := patchedReg, parseDirectiveBlock := patchedParse }
  (res.1, { res.2 with directivesReg := saved1, parseDirectiveBlock := saved2 })

/-- One call into the output layer of `RstTranslator`: an
`append(text, newlines)` call, a hold-space push or pop, or an indent-level
change.  Every visitor method writes to the output exclusively through these
operations, so any rendering run is some sequence of them. -/
inductive ROp where
  | app (text : Option (List Str)) (newlines : Nat)
  | enterHold
  | exitHold
  | indentInc
  | indentDec

/-- Execute one output-layer operation. -/
def runOp (cfg : RstFormatterConfig) (st : TState) : ROp → Except String TState
  | .app t k => appendT cfg st t k
  | .enterHold => .ok (enter_nonbreakable_element st)
  | .exitHold =>
    match exit_nonbreakable_element st with
    | none => .error "pop from empty list"
    | some (_, st1) => .ok st1
  | .indentInc => .ok { st with indent_level := st.indent_level + 1 }
  | .indentDec => .ok { st with indent_level := st.indent_level - 1 }

/-- Execute a sequence of output-layer operations. -/
def runOps (cfg : RstFormatterConfig) : List ROp → TState → Except String TState
  | [], st => .ok st
  | op :: ops, st => do runOps cfg ops (← runOp cfg st op)

/-- All words passed to `append` by a sequence of operations: the candidate
non-breakable units of the produced output. -/
def opWords : List ROp → List Str
  | [] => []
  | .app (some ws) _ :: ops => ws ++ opWords ops
  | _ :: ops => opWords ops

/-- The whitespace-delimited tokens of a text: maximal runs of
non-space/non-newline characters. -/
def tokensWS (s : Str) : List Str := (reSplitSpaceNl s).filter (· ≠ [])

/-- The sequence of non-whitespace characters of a text. -/
def nonWsChars (s : Str) : Str := s.filter (fun c => !(isSpaceNl c))

/-- Inline content a paragraph may contain for the content-preservation
statement: plain text, or a non-breakable span whose children are plain
text (e.g. `*emphasis*`, `**strong**`, a reference, or a configured
no-line-break span). -/
def InlineOk : RNode → Bool
  | .text _ => true
  | .nonbreakable _ kids =>
    kids.all (fun k => match k with | .text _ => true | _ => false)
  | _ => false

/-- A document consisting of paragraphs of such inline content. -/
def ParaDoc : RNode → Bool
  | .document kids =>
    kids.all (fun k => match k with
      | .paragraph inl => inl.all InlineOk
      | _ => false)
  | _ => false

/-- The source-text characters of an inline node: a text node carries its
text, a non-breakable span is reproduced from its stored `rawsource`. -/
def inlineChars : RNode → Str
  | .text s => s
  | .nonbreakable raw _ => raw
  | _ => []

/-- The source-text characters of a paragraph node. -/
def paraChars : RNode → Str
  | .paragraph inl => (inl.map inlineChars).flatten
  | _ => []

/-- The source-text characters of a document of paragraphs. -/
def docChars : RNode → Str
  | .document kids => (kids.map paraChars).flatten
  | _ => []

/-- The balance a visit/depart pair must restore (spec §3 invariant): the
hold-space stack depth, the indent level, and the section depth are the same
in `st'` as in `st`. -/
def KeepsBalance (st st' : TState) : Prop :=
  st'.hold_space.length = st.hold_space.length ∧
  st'.indent_level = st.indent_level ∧
  st'.section_depth = st.section_depth

/-- A line the width bound allows: within `max_line_length`, or a single
emitted unit from `U` preceded only by indent spaces. -/
def GoodLine (cfg : RstFormatterConfig) (U : List Str) (l : Str) : Prop :=
  l.length ≤ cfg.maxLineLength ∨ ∃ u ∈ U, ∃ k, l = List.replicate k ' ' ++ u

/-- Invariant of the word-wrapping output buffer, over the output text and
the cursor value: the output is some sequence of completed newline-free lines
followed by the current line; completed lines satisfy the width bound, the
`line_length` cursor dominates the current line's true length, and the
current line is within bounds unless it is a single unit. -/
def WrapInvO (cfg : RstFormatterConfig) (U : List Str) (out : Str) (ll : Nat) : Prop :=
  ∃ done cur,
    out = List.intercalate ['\n'] (done ++ [cur]) ∧
    (∀ l ∈ done, '\n' ∉ l ∧ GoodLine cfg U l) ∧
    '\n' ∉ cur ∧
    cur.length ≤ ll ∧
    (ll ≤ cfg.maxLineLength ∨ GoodLine cfg U cur)

/-- The invariant, read off a translator state. -/
def WrapInv (cfg : RstFormatterConfig) (U : List Str) (st : TState) : Prop :=
  WrapInvO cfg U st.output st.line_length

deriving instance DecidableEq for Except

/-- A small-width configuration (`max_line_length=10`) used to exercise
word wrapping. -/
def cfg10 : RstFormatterConfig := { defaultConfig with maxLineLength := 10 }

/-! ## Theorems -/

theorem except_bind_ok {α β : Type} {x : Except String α} {f : α → Except String β}
    {b : β} : (x >>= f) = Except.ok b ↔ ∃ a, x = Except.ok a ∧ f a = Except.ok b := by
  cases x <;> simp [Bind.bind, Except.bind]

theorem except_map_ok {α β : Type} {g : α → β} {x : Except String α} {b : β} :
    Except.map g x = Except.ok b ↔ ∃ a, x = Except.ok a ∧ g a = b := by
  cases x <;> simp [Except.map] <;> exact ⟨fun h => h.symm, fun h => h.symm⟩

theorem pure_ok {α : Type} {a b : α} (h : (pure a : Except String α) = Except.ok b) :
    a = b := by
  have h2 : Except.ok a = Except.ok b := h
  injection h2

/-- C6.  The pre-normalization step of `format_rst` (line 419) is claimed to
insert a newline exactly before directive-marker (`.. `) lines not already
preceded by a blank line.  The code's regex `([^\n])(\n.. )` has unescaped
dots, so it also fires on `"Bla\nab cd"`, whose second line is no directive:
the code inserts a blank line there, contradicting the claim's "inserts no
newline before any line that does not begin a directive marker".  The first
two conjuncts record the intended directive behavior, the last the bug. -/
theorem c6_directive_newline_insertion_bug :
    directiveNewlineFix (str "Bla\n.. mydirective::\nRemainder") =
      str "Bla\n\n.. mydirective::\nRemainder" ∧
    directiveNewlineFix (str "Bla\n\n.. mydirective::") = str "Bla\n\n.. mydirective::" ∧
    directiveNewlineFix (str "Bla\nab cd") = str "Bla\n\nab cd" := by
  exact ⟨by decide, by decide, by decide⟩

/-- C7.  `forgiving_parse_directive_block` computes each option key as
`match.group()[1:-2]`.  The docutils `field_marker` match ends with the run
of spaces after the closing colon, or with the end of the line; on the option
line `":arg:"` (no value) the match is just `":arg:"`, so slicing off two
trailing characters yields the key `"ar"` instead of the claimed text between
the colons, `"arg"`.  The second conjunct shows the canonical
one-space-after-colon form, where the claim's description holds. -/
theorem c7_option_key_truncation_bug :
    forgiving_parse_directive_block [str "", str ":arg:"] =
      some ([], [(str "ar", [])], []) ∧
    forgiving_parse_directive_block
        [str "a1 a2", str ":header: v", str "", str "line1", str ""] =
      some ([str "a1", str "a2"], [(str "header", str "v")], [str "line1"]) := by
  exact ⟨by decide, by decide⟩

/-- C1.  Idempotence counterexample chain, `max_line_length = 10`.  On input
`"abcd efgh ij kl"` (one paragraph, parsed by the external parser as a single
text) the formatter wraps to `"abcd efgh\nij kl"`.  Feeding that output back
in, the pre-normalization of `format_rst` (the buggy regex of C6) splits the
wrapped line `"ij kl"` away from its paragraph with a blank line, the parser
then sees two paragraphs, and the second run returns
`"abcd efgh\n\nij kl" ≠ "abcd efgh\nij kl"`. -/
theorem c1_idempotence_failure :
    (render cfg10 (.document [.paragraph [.text (str "abcd efgh ij kl")]])).map
        (postNormalize cfg10) = Except.ok (str "abcd efgh\nij kl") ∧
    preNormalize cfg10 (str "abcd efgh\nij kl") = str "abcd efgh\n\nij kl" ∧
    (render cfg10 (.document [.paragraph [.text (str "abcd efgh")],
        .paragraph [.text (str "ij kl")]])).map (postNormalize cfg10) =
      Except.ok (str "abcd efgh\n\nij kl") ∧
    str "abcd efgh\n\nij kl" ≠ str "abcd efgh\nij kl" := by
  exact ⟨by decide, by decide, by decide, by decide⟩

/-- C2 counterexample.  On the paragraph `"Hello , world"` (a single text
node for the external parser) the renderer attaches the word `","` to the
previous word without a separating space, so the sequence of
whitespace-delimited non-whitespace tokens changes from
`["Hello", ",", "world"]` to `["Hello,", "world"]`. -/
theorem c2_token_sequence_counterexample :
    (render defaultConfig (.document [.paragraph [.text (str "Hello , world")]])) =
      Except.ok (str "Hello, world\n") ∧
    tokensWS (str "Hello , world") = [str "Hello", str ",", str "world"] ∧
    tokensWS (str "Hello, world\n") = [str "Hello,", str "world"] ∧
    tokensWS (str "Hello, world\n") ≠ tokensWS (str "Hello , world") := by
  exact ⟨by decide, by decide, by decide, by decide⟩

/-- `_append_word_wrap` only writes the output and moves the cursor; every
other state component is untouched. -/
theorem aww_frame (cfg : RstFormatterConfig) (ws : List Str) (st : TState) :
    ∃ out ll, append_word_wrap cfg st ws = { st with output := out, line_length := ll } := by
  induction ws generalizing st with
  | nil => exact ⟨st.output, st.line_length, by rw [append_word_wrap]⟩
  | cons w ws ih =>
    rw [append_word_wrap]
    split
    · exact ih st
    · dsimp only
      split
      · split
        · obtain ⟨out, ll, h⟩ := ih _
          exact ⟨out, ll, by rw [h]⟩
        · obtain ⟨out, ll, h⟩ := ih _
          exact ⟨out, ll, by rw [h]⟩
      · split
        · obtain ⟨out, ll, h⟩ := ih _
          exact ⟨out, ll, by rw [h]⟩
        · obtain ⟨out, ll, h⟩ := ih _
          exact ⟨out, ll, by rw [h]⟩

/-- `append` on success preserves the hold-space depth, the indent level,
the section depth, the bullet stack and the pending-blank-line flag. -/
theorem appendT_frame {cfg : RstFormatterConfig} {st : TState} {t : Option (List Str)}
    {k : Nat} {st' : TState} (h : appendT cfg st t k = .ok st') :
    st'.hold_space.length = st.hold_space.length ∧
    st'.indent_level = st.indent_level ∧
    st'.section_depth = st.section_depth ∧
    st'.bullet_char = st.bullet_char ∧
    st'.need_newline_before_paragraph_start = st.need_newline_before_paragraph_start := by
  unfold appendT at h
  split at h
  case _ heq =>
    cases t with
    | none =>
      dsimp only at h
      split at h <;> (injection h with h2 ; subst h2 ; simp [heq])
    | some ws =>
      obtain ⟨out, ll, ha⟩ := aww_frame cfg ws st
      dsimp only at h
      rw [ha] at h
      split at h <;> (injection h with h2 ; subst h2 ; simp [heq])
  case _ hd tl heq =>
    split at h
    · exact absurd h (by simp)
    · cases t with
      | none =>
        injection h with h2 ; subst h2 ; simp
      | some ws =>
        cases ws with
        | nil => injection h with h2 ; subst h2 ; simp
        | cons w ws' =>
          injection h with h2 ; subst h2 ; simp [heq]

/-- `append_possible_newline` on success preserves hold depth, indent,
section depth and bullet stack. -/
theorem apn_frame {cfg : RstFormatterConfig} {st st' : TState}
    (h : append_possible_newline cfg st = .ok st') :
    st'.hold_space.length = st.hold_space.length ∧
    st'.indent_level = st.indent_level ∧
    st'.section_depth = st.section_depth ∧
    st'.bullet_char = st.bullet_char := by
  unfold append_possible_newline at h
  split at h
  · obtain ⟨a, ha, hb⟩ := except_map_ok.mp h
    obtain ⟨h1, h2, h3, h4, _⟩ := appendT_frame ha
    subst hb
    exact ⟨h1, h2, h3, h4⟩
  · injection h with h2
    subst h2
    exact ⟨rfl, rfl, rfl, rfl⟩

/-- Popping the hold space: everything except the hold-space stack is kept. -/
theorem exit_nb_frame {st : TState} {t : Str} {st1 : TState}
    (h : exit_nonbreakable_element st = some (t, st1)) :
    st1.hold_space.length + 1 = st.hold_space.length ∧
    st1.indent_level = st.indent_level ∧
    st1.section_depth = st.section_depth ∧
    st1.bullet_char = st.bullet_char ∧
    st1.need_newline_before_paragraph_start = st.need_newline_before_paragraph_start ∧
    st1.output = st.output ∧ st1.line_length = st.line_length := by
  unfold exit_nonbreakable_element at h
  split at h
  · exact absurd h (by simp)
  case _ hd tl heq =>
    injection h with h2
    injection h2 with h3 h4
    subst h4
    simp [heq]

/-- The option-emission loop preserves the same components as `append`. -/
theorem renderOptionLines_frame {cfg : RstFormatterConfig} :
    ∀ {opts : List (Str × Str)} {st st' : TState},
    renderOptionLines cfg opts st = .ok st' →
    st'.hold_space.length = st.hold_space.length ∧
    st'.indent_level = st.indent_level ∧
    st'.section_depth = st.section_depth ∧
    st'.bullet_char = st.bullet_char ∧
    st'.need_newline_before_paragraph_start = st.need_newline_before_paragraph_start := by
  intro opts
  induction opts with
  | nil =>
    intro st st' h
    injection h with h2
    subst h2
    exact ⟨rfl, rfl, rfl, rfl, rfl⟩
  | cons p rest ih =>
    intro st st' h
    rw [renderOptionLines] at h
    obtain ⟨a, ha, hb⟩ := except_bind_ok.mp h
    obtain ⟨a1, a2, a3, a4, a5⟩ := appendT_frame ha
    obtain ⟨b1, b2, b3, b4, b5⟩ := ih hb
    exact ⟨by omega, by rw [b2, a2], by rw [b3, a3], by rw [b4, a4], by rw [b5, a5]⟩

/-- The content-emission loop preserves the same components as `append`. -/
theorem renderContentLines_frame {cfg : RstFormatterConfig} :
    ∀ {content : List Str} {st st' : TState},
    renderContentLines cfg content st = .ok st' →
    st'.hold_space.length = st.hold_space.length ∧
    st'.indent_level = st.indent_level ∧
    st'.section_depth = st.section_depth ∧
    st'.bullet_char = st.bullet_char ∧
    st'.need_newline_before_paragraph_start = st.need_newline_before_paragraph_start := by
  intro content
  induction content with
  | nil =>
    intro st st' h
    injection h with h2
    subst h2
    exact ⟨rfl, rfl, rfl, rfl, rfl⟩
  | cons l rest ih =>
    intro st st' h
    rw [renderContentLines] at h
    obtain ⟨a, ha, hb⟩ := except_bind_ok.mp h
    obtain ⟨a1, a2, a3, a4, a5⟩ := appendT_frame ha
    obtain ⟨b1, b2, b3, b4, b5⟩ := ih hb
    exact ⟨by omega, by rw [b2, a2], by rw [b3, a3], by rw [b4, a4], by rw [b5, a5]⟩

/-- `depart_title` on success pops exactly one hold-space entry and keeps
indent level, section depth and bullet stack. -/
theorem depart_title_frame {cfg : RstFormatterConfig} {st st' : TState}
    (h : depart_title cfg st = .ok st') :
    st'.hold_space.length + 1 = st.hold_space.length ∧
    st'.indent_level = st.indent_level ∧
    st'.section_depth = st.section_depth ∧
    st'.bullet_char = st.bullet_char := by
  unfold depart_title at h
  split at h
  · exact absurd h (by simp)
  case _ tt st1 heq =>
    obtain ⟨e1, e2, e3, e4, e5, _, _⟩ := exit_nb_frame heq
    split at h
    · exact absurd h (by simp)
    case _ sepChars hsep =>
      split at h
      · exact absurd h (by simp)
      case _ c cs =>
        dsimp only at h
        have main : ∀ a : TState,
            a.hold_space.length = st1.hold_space.length ∧
            a.indent_level = st1.indent_level ∧
            a.section_depth = st1.section_depth ∧
            a.bullet_char = st1.bullet_char →
            (do
              let st3 ← appendT cfg a (some [tt]) 1
              let st4 ← appendT cfg st3
                (some [List.replicate (List.length tt) (cs.getLastD c)]) 1
              pure (if st4.section_depth ≤ cfg.newlineAfterTitle then
                { st4 with need_newline_before_paragraph_start := true }
                else st4)) = Except.ok st' →
            st'.hold_space.length + 1 = st.hold_space.length ∧
            st'.indent_level = st.indent_level ∧
            st'.section_depth = st.section_depth ∧
            st'.bullet_char = st.bullet_char := by
          intro a ⟨a1, a2, a3, a4⟩ hb
          obtain ⟨b, hbp, hc⟩ := except_bind_ok.mp hb
          obtain ⟨b1, b2, b3, b4, _⟩ := appendT_frame hbp
          obtain ⟨d, hd, he⟩ := except_bind_ok.mp hc
          obtain ⟨d1, d2, d3, d4, _⟩ := appendT_frame hd
          have he2 : st'.hold_space.length = d.hold_space.length ∧
              st'.indent_level = d.indent_level ∧
              st'.section_depth = d.section_depth ∧
              st'.bullet_char = d.bullet_char := by
            injection he with h2
            subst h2
            split <;> exact ⟨rfl, rfl, rfl, rfl⟩
          obtain ⟨f1, f2, f3, f4⟩ := he2
          refine ⟨by omega, ?_, ?_, ?_⟩
          · rw [f2, d2, b2, a2, e2]
          · rw [f3, d3, b3, a3, e3]
          · rw [f4, d4, b4, a4, e4]
        split at h
        · obtain ⟨a, ha, hb⟩ := except_bind_ok.mp h
          obtain ⟨x1, x2, x3, x4, _⟩ := appendT_frame ha
          exact main a ⟨x1, x2, x3, x4⟩ hb
        · obtain ⟨a, ha, hb⟩ := except_bind_ok.mp h
          have haeq : a = st1 := (pure_ok ha).symm
          subst haeq
          exact main a ⟨rfl, rfl, rfl, rfl⟩ hb

/-- `depart_target` on success pops exactly one hold-space entry and keeps
indent level, section depth and bullet stack. -/
theorem depart_target_frame {cfg : RstFormatterConfig} {raw : Str} {hk : Bool}
    {st st' : TState} (h : depart_target cfg raw hk st = .ok st') :
    st'.hold_space.length + 1 = st.hold_space.length ∧
    st'.indent_level = st.indent_level ∧
    st'.section_depth = st.section_depth ∧
    st'.bullet_char = st.bullet_char := by
  unfold depart_target at h
  split at h
  · exact absurd h (by simp)
  case _ tt st1 heq =>
    obtain ⟨e1, e2, e3, e4, _, _, _⟩ := exit_nb_frame heq
    split at h
    · obtain ⟨a, ha, hb⟩ := except_bind_ok.mp h
      obtain ⟨a1, a2, a3, a4⟩ := apn_frame ha
      obtain ⟨b, hbp, hc⟩ := except_bind_ok.mp hb
      obtain ⟨b1, b2, b3, b4, _⟩ := appendT_frame hbp
      have : st'.hold_space.length = b.hold_space.length ∧
          st'.indent_level = b.indent_level ∧
          st'.section_depth = b.section_depth ∧
          st'.bullet_char = b.bullet_char := by
        injection hc with h2
        subst h2
        exact ⟨rfl, rfl, rfl, rfl⟩
      obtain ⟨f1, f2, f3, f4⟩ := this
      refine ⟨by omega, ?_, ?_, ?_⟩
      · rw [f2, b2, a2, e2]
      · rw [f3, b3, a3, e3]
      · rw [f4, b4, a4, e4]
    · split at h
      · obtain ⟨a1, a2, a3, a4, _⟩ := appendT_frame h
        refine ⟨by omega, ?_, ?_, ?_⟩
        · rw [a2, e2]
        · rw [a3, e3]
        · rw [a4, e4]
      · injection h with h2
        subst h2
        exact ⟨by omega, e2, e3, e4⟩

/-- Chaining balance preservation. -/
theorem kb_trans {a b c : TState} (h1 : KeepsBalance a b) (h2 : KeepsBalance b c) :
    KeepsBalance a c := by
  obtain ⟨x1, x2, x3⟩ := h1
  obtain ⟨y1, y2, y3⟩ := h2
  exact ⟨by omega, by rw [y2, x2], by rw [y3, x3]⟩

/-- The invariant of §3 (claim C9), node part: whenever the visit/depart pair
of a node completes successfully, the hold-space depth, the indent level and
the section depth are back at their entry values. -/
theorem visitNode_balance (cfg : RstFormatterConfig) :
    ∀ (n : RNode) (st : TState), ∀ st', visitNode cfg n st = .ok st' →
      KeepsBalance st st' := by
  refine visitNode.induct cfg
    (fun n st => ∀ st', visitNode cfg n st = .ok st' → KeepsBalance st st')
    (fun l st => ∀ st', visitList cfg l st = .ok st' → KeepsBalance st st')
    ?_ ?_ ?_ ?_ ?_ ?_ ?_ ?_ ?_ ?_ ?_ ?_ ?_ ?_ ?_ ?_ ?_ ?_ ?_
  -- text
  · intro s st st' h
    simp only [visitNode] at h
    obtain ⟨a1, a2, a3, _, _⟩ := appendT_frame h
    exact ⟨a1, a2, a3⟩
  -- paragraph
  · intro kids st ih st' h
    simp only [visitNode] at h
    obtain ⟨a, ha, hb⟩ := except_bind_ok.mp h
    obtain ⟨a1, a2, a3, _⟩ := apn_frame ha
    obtain ⟨b, hbp, hc⟩ := except_bind_ok.mp hb
    obtain ⟨k1, k2, k3⟩ := ih a b hbp
    obtain ⟨c, hcp, hd⟩ := except_bind_ok.mp hc
    obtain ⟨c1, c2, c3, _, _⟩ := appendT_frame hcp
    have hst' : st' = { c with need_newline_before_paragraph_start := true } := (pure_ok hd).symm
    have f1 : st'.hold_space.length = c.hold_space.length := by rw [hst']
    have f2 : st'.indent_level = c.indent_level := by rw [hst']
    have f3 : st'.section_depth = c.section_depth := by rw [hst']
    exact ⟨by omega, by rw [f2, c2, k2, a2], by rw [f3, c3, k3, a3]⟩
  -- section
  · intro kids st ih st' h
    simp only [visitNode] at h
    obtain ⟨a, ha, hb⟩ := except_bind_ok.mp h
    have kb1 := ih a ha
    have k1 : a.hold_space.length = st.hold_space.length := kb1.1
    have k2 : a.indent_level = st.indent_level := kb1.2.1
    have k3 : a.section_depth = st.section_depth + 1 := kb1.2.2
    have hst' : st' = { a with section_depth := a.section_depth - 1 } := (pure_ok hb).symm
    have f1 : st'.hold_space.length = a.hold_space.length := by rw [hst']
    have f2 : st'.indent_level = a.indent_level := by rw [hst']
    have f3 : st'.section_depth = a.section_depth - 1 := by rw [hst']
    exact ⟨by omega, by rw [f2, k2], by omega⟩
  -- title
  · intro kids st ih st' h
    simp only [visitNode] at h
    obtain ⟨a, ha, hb⟩ := except_bind_ok.mp h
    obtain ⟨a1, a2, a3, _⟩ := apn_frame ha
    obtain ⟨b, hbp, hc⟩ := except_bind_ok.mp hb
    have kb1 := ih a b hbp
    have k1 : b.hold_space.length = a.hold_space.length + 1 := kb1.1
    have k2 : b.indent_level = a.indent_level := kb1.2.1
    have k3 : b.section_depth = a.section_depth := kb1.2.2
    obtain ⟨d1, d2, d3, _⟩ := depart_title_frame hc
    exact ⟨by omega, by rw [d2, k2, a2], by rw [d3, k3, a3]⟩
  -- bulletList (guard true: the blank line is emitted first)
  · intro bullet kids st hguard ih st' h
    simp only [visitNode] at h
    rw [if_pos hguard] at h
    obtain ⟨a, ha, hb⟩ := except_bind_ok.mp h
    obtain ⟨a1, a2, a3, _, _⟩ := appendT_frame ha
    obtain ⟨b, hbp, hc⟩ := except_bind_ok.mp hb
    have kb1 := ih a b hbp
    have k1 : b.hold_space.length = a.hold_space.length := kb1.1
    have k2 : b.indent_level = a.indent_level := kb1.2.1
    have k3 : b.section_depth = a.section_depth := kb1.2.2
    have hst' : st' = { b with bullet_char := b.bullet_char.tail } := (pure_ok hc).symm
    have f1 : st'.hold_space.length = b.hold_space.length := by rw [hst']
    have f2 : st'.indent_level = b.indent_level := by rw [hst']
    have f3 : st'.section_depth = b.section_depth := by rw [hst']
    exact ⟨by omega, by rw [f2, k2, a2], by rw [f3, k3, a3]⟩
  -- bulletList (guard false: no blank line)
  · intro bullet kids st hguard ih st' h
    simp only [visitNode] at h
    rw [if_neg hguard] at h
    obtain ⟨a, ha, hb⟩ := except_bind_ok.mp h
    have haeq : st = a := pure_ok ha
    obtain ⟨b, hbp, hc⟩ := except_bind_ok.mp hb
    have kb1 := ih a b hbp
    have k1 : b.hold_space.length = a.hold_space.length := kb1.1
    have k2 : b.indent_level = a.indent_level := kb1.2.1
    have k3 : b.section_depth = a.section_depth := kb1.2.2
    have hst' : st' = { b with bullet_char := b.bullet_char.tail } := (pure_ok hc).symm
    have f1 : st'.hold_space.length = b.hold_space.length := by rw [hst']
    have f2 : st'.indent_level = b.indent_level := by rw [hst']
    have f3 : st'.section_depth = b.section_depth := by rw [hst']
    exact ⟨by rw [f1, k1, ← haeq], by rw [f2, k2, ← haeq], by rw [f3, k3, ← haeq]⟩
  -- listItem, empty bullet stack: the visit raises
  · intro kids st hempty st' h
    simp only [visitNode] at h
    rw [hempty] at h
    exact absurd h (by simp)
  -- listItem
  · intro kids st b rest hstack ih st' h
    simp only [visitNode] at h
    rw [hstack] at h
    dsimp only at h
    obtain ⟨a, ha, hb⟩ := except_bind_ok.mp h
    obtain ⟨a1, a2, a3, _, _⟩ := appendT_frame ha
    obtain ⟨m, hmp, hc⟩ := except_bind_ok.mp hb
    have kb1 := ih a m hmp
    have k1 : m.hold_space.length = a.hold_space.length := kb1.1
    have k2 : m.indent_level = a.indent_level + 1 := kb1.2.1
    have k3 : m.section_depth = a.section_depth := kb1.2.2
    have hst' : st' = { m with indent_level := m.indent_level - 1 } := (pure_ok hc).symm
    have f1 : st'.hold_space.length = m.hold_space.length := by rw [hst']
    have f2 : st'.indent_level = m.indent_level - 1 := by rw [hst']
    have f3 : st'.section_depth = m.section_depth := by rw [hst']
    exact ⟨by omega, by omega, by rw [f3, k3, a3]⟩
  -- target
  · intro raw kids st ih st' h
    simp only [visitNode] at h
    obtain ⟨b, hbp, hc⟩ := except_bind_ok.mp h
    have kb1 := ih b hbp
    have k1 : b.hold_space.length = st.hold_space.length + 1 := kb1.1
    have k2 : b.indent_level = st.indent_level := kb1.2.1
    have k3 : b.section_depth = st.section_depth := kb1.2.2
    obtain ⟨d1, d2, d3, _⟩ := depart_target_frame hc
    exact ⟨by omega, by rw [d2, k2], by rw [d3, k3]⟩
  -- citation
  · intro kids st ih st' h
    simp only [visitNode] at h
    obtain ⟨a, ha, hb⟩ := except_bind_ok.mp h
    obtain ⟨a1, a2, a3, _⟩ := apn_frame ha
    obtain ⟨b, hbp, hc⟩ := except_bind_ok.mp hb
    obtain ⟨b1, b2, b3, _, _⟩ := appendT_frame hbp
    obtain ⟨m, hmp, hd⟩ := except_bind_ok.mp hc
    have kb1 := ih b m hmp
    have k1 : m.hold_space.length = b.hold_space.length := kb1.1
    have k2 : m.indent_level = b.indent_level := kb1.2.1
    have k3 : m.section_depth = b.section_depth := kb1.2.2
    have hst' : st' = { m with need_newline_before_paragraph_start := true } := (pure_ok hd).symm
    have f1 : st'.hold_space.length = m.hold_space.length := by rw [hst']
    have f2 : st'.indent_level = m.indent_level := by rw [hst']
    have f3 : st'.section_depth = m.section_depth := by rw [hst']
    exact ⟨by omega, by rw [f2, k2, b2, a2], by rw [f3, k3, b3, a3]⟩
  -- label
  · intro kids st ih st' h
    simp only [visitNode] at h
    obtain ⟨b, hbp, hc⟩ := except_bind_ok.mp h
    have kb1 := ih b hbp
    have k1 : b.hold_space.length = st.hold_space.length + 1 := kb1.1
    have k2 : b.indent_level = st.indent_level := kb1.2.1
    have k3 : b.section_depth = st.section_depth := kb1.2.2
    split at hc
    · exact absurd hc (by simp)
    case _ tt st3 heq =>
      obtain ⟨e1, e2, e3, _, _, _, _⟩ := exit_nb_frame heq
      obtain ⟨c1, c2, c3, _, _⟩ := appendT_frame hc
      exact ⟨by omega, by rw [c2, e2, k2], by rw [c3, e3, k3]⟩
  -- systemMessage
  · intro kids st st' h
    simp only [visitNode] at h
    have heq : st = st' := pure_ok h
    subst heq
    exact ⟨rfl, rfl, rfl⟩
  -- directive
  · intro name args opts content st st' h
    simp only [visitNode] at h
    obtain ⟨a, ha, hb⟩ := except_bind_ok.mp h
    obtain ⟨a1, a2, a3, _⟩ := apn_frame ha
    split at hb
    · exact absurd hb (by simp)
    · obtain ⟨b, hbp, hc⟩ := except_bind_ok.mp hb
      obtain ⟨b1, b2, b3, _, _⟩ := appendT_frame hbp
      obtain ⟨c, hcp, hd⟩ := except_bind_ok.mp hc
      obtain ⟨c1, c2, c3, _, _⟩ := renderOptionLines_frame hcp
      have tail : ∀ d : TState,
          d.hold_space.length = c.hold_space.length →
          d.indent_level = c.indent_level →
          d.section_depth = c.section_depth →
          (renderContentLines cfg content d >>= fun st6 =>
            (pure { st6 with indent_level := st6.indent_level - 1, need_newline_before_paragraph_start := true } : Except String TState)) = Except.ok st' →
          KeepsBalance st st' := by
        intro d d1 d2 d3 he
        obtain ⟨e, hep, hf⟩ := except_bind_ok.mp he
        obtain ⟨e1, e2, e3, _, _⟩ := renderContentLines_frame hep
        have hst' : st' = { e with indent_level := e.indent_level - 1, need_newline_before_paragraph_start := true } := (pure_ok hf).symm
        have f1 : st'.hold_space.length = e.hold_space.length := by rw [hst']
        have f2 : st'.indent_level = e.indent_level - 1 := by rw [hst']
        have f3 : st'.section_depth = e.section_depth := by rw [hst']
        have c1b : c.hold_space.length = b.hold_space.length := c1
        have c2b : c.indent_level = b.indent_level + 1 := c2
        have c3b : c.section_depth = b.section_depth := c3
        refine ⟨by omega, by omega, by rw [f3, e3, d3, c3b, b3, a3]⟩
      split at hd
      · obtain ⟨d, hdp, he⟩ := except_bind_ok.mp hd
        obtain ⟨x1, x2, x3, _, _⟩ := appendT_frame hdp
        exact tail d (by omega) (by rw [x2]) (by rw [x3]) he
      · obtain ⟨d, hdp, he⟩ := except_bind_ok.mp hd
        have hdeq : d = c := (pure_ok hdp).symm
        subst hdeq
        exact tail d rfl rfl rfl he
  -- nonbreakable
  · intro raw kids st ih st' h
    simp only [visitNode] at h
    obtain ⟨b, hbp, hc⟩ := except_bind_ok.mp h
    have kb1 := ih b hbp
    have k1 : b.hold_space.length = st.hold_space.length + 1 := kb1.1
    have k2 : b.indent_level = st.indent_level := kb1.2.1
    have k3 : b.section_depth = st.section_depth := kb1.2.2
    split at hc
    · exact absurd hc (by simp)
    case _ tt st3 heq =>
      obtain ⟨e1, e2, e3, _, _, _, _⟩ := exit_nb_frame heq
      obtain ⟨c1, c2, c3, _, _⟩ := appendT_frame hc
      exact ⟨by omega, by rw [c2, e2, k2], by rw [c3, e3, k3]⟩
  -- document
  · intro kids st ih st' h
    simp only [visitNode] at h
    exact ih st' h
  -- transition
  · intro st st' h
    simp only [visitNode] at h
    have heq : st = st' := pure_ok h
    subst heq
    exact ⟨rfl, rfl, rfl⟩
  -- unknown
  · intro st st' h
    simp only [visitNode] at h
    exact absurd h (by simp)
  -- visitList nil
  · intro st st' h
    simp only [visitList] at h
    have heq : st = st' := pure_ok h
    subst heq
    exact ⟨rfl, rfl, rfl⟩
  -- visitList cons
  · intro k ks st ih1 ih2 st' h
    simp only [visitList] at h
    obtain ⟨a, ha, hb⟩ := except_bind_ok.mp h
    exact kb_trans (ih1 a ha) (ih2 a st' hb)

/-- The invariant of §3 (claim C9), sibling-list part. -/
theorem visitList_balance (cfg : RstFormatterConfig) :
    ∀ (l : List RNode) (st st' : TState), visitList cfg l st = .ok st' →
      KeepsBalance st st' := by
  intro l
  induction l with
  | nil =>
    intro st st' h
    have heq : st = st' := pure_ok h
    subst heq
    exact ⟨rfl, rfl, rfl⟩
  | cons k ks ih =>
    intro st st' h
    simp only [visitList] at h
    obtain ⟨a, ha, hb⟩ := except_bind_ok.mp h
    exact kb_trans (visitNode_balance cfg k st a ha) (ih a st' hb)

/-- C9.  The hold-space stack depth and the indent level after a node's
visit/depart pair completes are equal to their values before the visit; in
particular, starting from the fresh translator state (a full render), the
hold-space stack is empty and the indent level is zero afterwards. -/
theorem c9_hold_indent_balance (cfg : RstFormatterConfig) (n : RNode)
    (st st' : TState) (h : visitNode cfg n st = Except.ok st') :
    (st'.hold_space.length = st.hold_space.length ∧
     st'.indent_level = st.indent_level) ∧
    (st = initState → st'.hold_space = [] ∧ st'.indent_level = 0) := by
  have kb := visitNode_balance cfg n st st' h
  refine ⟨⟨kb.1, kb.2.1⟩, ?_⟩
  intro he
  subst he
  have h1 : st'.hold_space.length = 0 := by
    have := kb.1
    simpa [initState] using this
  refine ⟨List.length_eq_zero.mp h1, ?_⟩
  have := kb.2.1
  simpa [initState] using this

/-- Witness for C9 at a concrete tree: one paragraph with one text node. -/
theorem c9_hold_indent_balance_witness :
    (visitNode defaultConfig (.paragraph [.text (str "hi")]) initState =
      Except.ok { output := str "hi" ++ ['\n'], hold_space := [], line_length := 0,
                  indent_level := 0, section_depth := 0, bullet_char := [],
                  need_newline_before_paragraph_start := true }) ∧
    ([] : List (List Str)).length = initState.hold_space.length ∧
    (0 : Int) = initState.indent_level := by
  have hrun : visitNode defaultConfig (.paragraph [.text (str "hi")]) initState =
      Except.ok { output := str "hi" ++ ['\n'], hold_space := [], line_length := 0,
                  indent_level := 0, section_depth := 0, bullet_char := [],
                  need_newline_before_paragraph_start := true } := by decide
  refine ⟨hrun, ?_, ?_⟩
  · exact (c9_hold_indent_balance defaultConfig (.paragraph [.text (str "hi")])
      initState _ hrun).1.1
  · exact (c9_hold_indent_balance defaultConfig (.paragraph [.text (str "hi")])
      initState _ hrun).1.2

/-- An error while rendering the innermost node propagates out of any number
of enclosing sections (each section visit only bumps the depth counter). -/
theorem nestSection_err (cfg : RstFormatterConfig) (X : RNode) :
    ∀ (k : Nat) (st : TState),
      (∃ e, visitNode cfg X { st with section_depth := st.section_depth + (k : Int) } =
        .error e) →
      ∃ e, visitNode cfg (nestSection k X) st = .error e := by
  intro k
  induction k with
  | zero =>
    intro st ⟨e, he⟩
    have h0 : st.section_depth + ((0 : Nat) : Int) = st.section_depth := by simp
    rw [h0] at he
    exact ⟨e, he⟩
  | succ k ih =>
    intro st ⟨e, he⟩
    have harith : st.section_depth + ((k + 1 : Nat) : Int) =
        (st.section_depth + 1) + (k : Int) := by push_cast ; ring
    rw [harith] at he
    obtain ⟨e', he'⟩ := ih { st with section_depth := st.section_depth + 1 } ⟨e, he⟩
    refine ⟨e', ?_⟩
    simp only [nestSection, visitNode, visitList]
    rw [he']
    rfl

/-- `depart_title` fails with the `title_order` RuntimeError whenever the
section depth at the title exceeds the number of `title_order` entries
(rst_formatter.py lines 222-225). -/
theorem title_err (cfg : RstFormatterConfig) (kids : List RNode) (st : TState)
    (hned : st.need_newline_before_paragraph_start = false)
    (hrange : (cfg.titleOrder.length : Int) ≤ st.section_depth - 1)
    (hpos : 0 ≤ st.section_depth - 1) :
    ∃ e, visitNode cfg (.title kids) st = .error e := by
  have hapn : append_possible_newline cfg st = .ok st := by
    rw [append_possible_newline, hned]
    simp
  cases hv : visitList cfg kids (enter_nonbreakable_element st) with
  | error e =>
    refine ⟨e, ?_⟩
    simp only [visitNode]
    rw [hapn]
    show visitList cfg kids (enter_nonbreakable_element st) >>= _ = _
    rw [hv]
    rfl
  | ok st2 =>
    have kb := visitList_balance cfg kids _ _ hv
    have hlen : st2.hold_space.length = st.hold_space.length + 1 := by
      have := kb.1
      simpa [enter_nonbreakable_element] using this
    have hdep : st2.section_depth = st.section_depth := by
      have := kb.2.2
      simpa [enter_nonbreakable_element] using this
    cases hh : st2.hold_space with
    | nil => rw [hh] at hlen ; simp at hlen
    | cons hd tl =>
      have hpg : pyGet cfg.titleOrder (st2.section_depth - 1) = none := by
        rw [pyGet, if_pos (by omega)]
        apply List.get?_eq_none.mpr
        omega
      refine ⟨"Not enough title characters defined in title_order", ?_⟩
      simp only [visitNode]
      rw [hapn]
      show visitList cfg kids (enter_nonbreakable_element st) >>= _ = _
      rw [hv]
      show depart_title cfg st2 = _
      rw [depart_title, exit_nonbreakable_element, hh]
      simp only [hpg]

/-- C8.  Rendering a document whose title sits at a section depth exceeding
the number of `title_order` entries fails: the configuration error raised in
`depart_title` propagates out of the whole render call, and since the result
is an `Except.error`, no output text is produced for that call. -/
theorem c8_title_depth_overflow_error (cfg : RstFormatterConfig) (d : Nat)
    (kids : List RNode) (hd : cfg.titleOrder.length < d) :
    ∃ e, render cfg (nestSection d (.title kids)) = Except.error e := by
  have htitle : ∃ e, visitNode cfg (.title kids)
      { initState with section_depth := initState.section_depth + (d : Int) } =
      .error e := by
    apply title_err
    · rfl
    · simp [initState]
      omega
    · simp [initState]
      omega
  obtain ⟨e, he⟩ := nestSection_err cfg (.title kids) d initState htitle
  refine ⟨e, ?_⟩
  rw [render, he]
  rfl

/-- Witness for C8: five nested sections against the four-entry default
`title_order`. -/
theorem c8_title_depth_overflow_error_witness :
    defaultConfig.titleOrder.length < 5 ∧
    (∃ e, render defaultConfig (nestSection 5 (.title [.text (str "T")])) =
      Except.error e) :=
  ⟨by decide, c8_title_depth_overflow_error defaultConfig 5 [.text (str "T")] (by decide)⟩

/-- Appending one nonempty word that fits the width at the start of a line,
followed by one newline: the emitted text is the indent, the word, and the
line break. -/
theorem appendT_single_line (cfg : RstFormatterConfig) (st : TState) (w : Str)
    (hw : w ≠ []) (hhold : st.hold_space = []) (hll : st.line_length = 0)
    (hfit : w.length + 1 ≤ cfg.maxLineLength) :
    appendT cfg st (some [w]) 1 = .ok { st with
      output := st.output ++ indentStr st.indent_level ++ w ++ ['\n'],
      line_length := 0 } := by
  have hguard : ¬ (cfg.maxLineLength < st.line_length + 1 + w.length) := by
    rw [hll] ; omega
  unfold appendT
  rw [hhold]
  dsimp only
  rw [append_word_wrap, if_neg hw]
  dsimp only
  rw [if_neg hguard, if_pos hll, append_word_wrap]
  rw [if_pos Nat.zero_lt_one]
  simp [List.append_assoc]
  exact hhold


/-- Reduction of a successful bind step. -/
theorem ok_bind {α β : Type} (a : α) (f : α → Except String β) :
    (Except.ok a >>= f) = f a := rfl

/-- Reduction of a `pure` bind step. -/
theorem pure_bind_ex {α β : Type} (a : α) (f : α → Except String β) :
    ((pure a : Except String α) >>= f) = f a := rfl

/-- C4.  `depart_title` at a state holding the title words (`hold_space =
[ws]`, cursor at column zero) with `title_order[depth-1] = c :: cs` in range:
it emits — exactly when that entry has two characters — an overline of
`title.length` copies of its first character, then the joined title text,
then an underline of `title.length` copies of its last character, each on its
own line, and requests a blank line when the depth is within
`newline_after_title`.  The replicate counts show overline and underline have
length exactly equal to the emitted title text's length. -/
theorem c4_title_underline_length (cfg : RstFormatterConfig) (o : Str)
    (ws : List Str) (il sd : Int) (bc : List Str) (nn : Bool)
    (c : Char) (cs : List Char)
    (hsep : pyGet cfg.titleOrder (sd - 1) = some (c :: cs))
    (hne : List.intercalate [' '] ws ≠ [])
    (hfit : (List.intercalate [' '] ws).length + 1 ≤ cfg.maxLineLength) :
    depart_title cfg ⟨o, [ws], 0, il, sd, bc, nn⟩ = Except.ok
      ⟨o ++ (if (c :: cs).length = 2 then
          indentStr il ++ List.replicate (List.intercalate [' '] ws).length c ++ ['\n']
        else []) ++
        (indentStr il ++ List.intercalate [' '] ws ++ ['\n']) ++
        (indentStr il ++
          List.replicate (List.intercalate [' '] ws).length (cs.getLastD c) ++ ['\n']),
       [], 0, il, sd, bc, if sd ≤ cfg.newlineAfterTitle then true else nn⟩ := by
  have hlen0 : (List.intercalate [' '] ws).length ≠ 0 := by
    intro h0
    exact hne (List.length_eq_zero.mp h0)
  have hrep : ∀ ch : Char,
      (List.replicate (List.intercalate [' '] ws).length ch : Str) ≠ [] := by
    intro ch hemp
    have := List.length_replicate (List.intercalate [' '] ws).length ch
    rw [hemp] at this
    simp at this
    exact hlen0 this.symm
  have hrfit : ∀ ch : Char,
      (List.replicate (List.intercalate [' '] ws).length ch : Str).length + 1 ≤
        cfg.maxLineLength := by
    intro ch
    simpa using hfit
  rw [depart_title]
  dsimp only [exit_nonbreakable_element]
  rw [hsep]
  dsimp only
  by_cases h2 : (c :: cs).length = 2
  · rw [if_pos h2]
    rw [appendT_single_line cfg ⟨o, [], 0, il, sd, bc, nn⟩ _ (hrep c) rfl rfl (hrfit c),
      ok_bind]
    dsimp only
    rw [appendT_single_line cfg _ _ hne rfl rfl hfit, ok_bind]
    dsimp only
    rw [appendT_single_line cfg _ _ (hrep (cs.getLastD c)) rfl rfl (hrfit (cs.getLastD c)),
      ok_bind]
    dsimp only
    by_cases hcond : sd ≤ cfg.newlineAfterTitle
    · simp [Pure.pure, Except.pure, hcond, h2, List.append_assoc]
    · simp [Pure.pure, Except.pure, hcond, h2, List.append_assoc]
  · rw [if_neg h2]
    rw [pure_bind_ex]
    rw [appendT_single_line cfg ⟨o, [], 0, il, sd, bc, nn⟩ _ hne rfl rfl hfit, ok_bind]
    dsimp only
    rw [appendT_single_line cfg _ _ (hrep (cs.getLastD c)) rfl rfl (hrfit (cs.getLastD c)),
      ok_bind]
    dsimp only
    have h2b : ¬ cs.length = 1 := by simpa using h2
    by_cases hcond : sd ≤ cfg.newlineAfterTitle
    · simp [Pure.pure, Except.pure, hcond, h2, h2b, List.append_assoc]
    · simp [Pure.pure, Except.pure, hcond, h2, h2b, List.append_assoc]

/-- Witness for C4: the default configuration, depth 1 (`"=="`, overline and
underline), title `"My Title"`. -/
theorem c4_title_underline_length_witness :
    pyGet defaultConfig.titleOrder ((1 : Int) - 1) = some ('=' :: ['=']) ∧
    List.intercalate [' '] [str "My", str "Title"] ≠ [] ∧
    (List.intercalate [' '] [str "My", str "Title"]).length + 1 ≤ defaultConfig.maxLineLength ∧
    depart_title defaultConfig ⟨[], [[str "My", str "Title"]], 0, 0, 1, [], false⟩ = Except.ok
      ⟨[] ++ (if (('=' :: ['=']).length = 2) then indentStr 0 ++ List.replicate (List.intercalate [' '] [str "My", str "Title"]).length '=' ++ ['\n'] else []) ++ (indentStr 0 ++ List.intercalate [' '] [str "My", str "Title"] ++ ['\n']) ++ (indentStr 0 ++ List.replicate (List.intercalate [' '] [str "My", str "Title"]).length (['='].getLastD '=') ++ ['\n']),
       [], 0, 0, 1, [], if (1 : Int) ≤ defaultConfig.newlineAfterTitle then true else false⟩ :=
  ⟨by decide, by decide, by decide,
    c4_title_underline_length defaultConfig [] [str "My", str "Title"] 0 1 [] false
      '=' ['='] (by decide) (by decide) (by decide)⟩

/-- No token produced by `splitOnP` contains a separator character. -/
theorem splitOnP_no_sep (p : Char → Bool) (xs : Str) :
    ∀ l ∈ List.splitOnP p xs, ∀ c ∈ l, ¬ p c = true := by
  induction xs with
  | nil =>
    intro l hl c hc
    rw [List.splitOnP_nil] at hl
    simp at hl
    subst hl
    simp at hc
  | cons x xs ih =>
    intro l hl c hc
    rw [List.splitOnP_cons] at hl
    by_cases hpx : p x
    · rw [if_pos hpx] at hl
      rcases List.mem_cons.mp hl with h | h
      · subst h
        simp at hc
      · exact ih l h c hc
    · rw [if_neg hpx] at hl
      cases hsp : List.splitOnP p xs with
      | nil => exact absurd hsp (List.splitOnP_ne_nil p xs)
      | cons hh tt =>
        rw [hsp] at hl
        simp only [List.modifyHead] at hl
        rcases List.mem_cons.mp hl with h1 | h1
        · subst h1
          rcases List.mem_cons.mp hc with hcx | hch
          · subst hcx
            exact hpx
          · exact ih hh (by rw [hsp] ; exact List.mem_cons_self hh tt) c hch
        · exact ih l (by rw [hsp] ; exact List.mem_cons_of_mem hh h1) c hc

/-- Lines produced by `splitNl` contain no newline character. -/
theorem splitNl_no_nl (s : Str) : ∀ l ∈ splitNl s, '\n' ∉ l := by
  intro l hl hc
  have := splitOnP_no_sep (· == '\n') s l hl '\n' hc
  simp at this

/-- `splitNl` never returns the empty list. -/
theorem splitNl_ne_nil (s : Str) : splitNl s ≠ [] := List.splitOnP_ne_nil _ s

/-- The default-aware last element of a nonempty list is a member. -/
theorem getLastD_mem_of_ne_nil {l : Str} (h : l ≠ []) (d : Char) : l.getLastD d ∈ l := by
  cases l with
  | nil => exact absurd rfl h
  | cons a t =>
    clear h
    induction t generalizing a with
    | nil => simp
    | cons b t ih =>
      rw [List.getLastD_cons]
      exact List.mem_cons_of_mem a (ih b)

/-- The `([c]){3,}` run matcher accepts exactly total membership, capturing
the last character. -/
theorem headingRunLast_eq (cs : Str) (prev : Char) (l : Str) :
    headingRunLast cs prev l =
      if ∀ ch ∈ l, ch ∈ cs then some (l.getLastD prev) else none := by
  induction l generalizing prev with
  | nil => simp [headingRunLast]
  | cons c rest ih =>
    rw [headingRunLast]
    by_cases hc : c ∈ cs
    · rw [if_pos hc, ih c]
      by_cases hrest : ∀ ch ∈ rest, ch ∈ cs
      · rw [if_pos hrest, if_pos (by simpa [hc] using hrest)]
        rw [List.getLastD_cons]
      · rw [if_neg hrest, if_neg (by simp [hrest])]
    · rw [if_neg hc, if_neg (by simp [hc])]

/-- Characterization of the anchored heading-line regex: it matches exactly
the lines of length at least 3 all of whose characters are in the class, and
its group captures the line's last character. -/
theorem matchHeadingLine_eq (cs : Str) (l : Str) :
    matchHeadingLine cs l =
      if 3 ≤ l.length ∧ ∀ ch ∈ l, ch ∈ cs then some (l.getLastD ' ') else none := by
  match l with
  | [] => simp [matchHeadingLine]
  | [a] => simp [matchHeadingLine]
  | [a, b] => simp [matchHeadingLine]
  | a :: b :: c :: rest =>
    rw [matchHeadingLine]
    rw [headingRunLast_eq]
    by_cases hab : a ∈ cs ∧ b ∈ cs
    · rw [if_pos hab]
      by_cases hrest : ∀ ch ∈ (c :: rest), ch ∈ cs
      · rw [if_pos hrest, if_pos ?hcnd]
        case hcnd =>
          refine ⟨by simp only [List.length_cons] ; omega, ?_⟩
          intro ch hch
          rcases List.mem_cons.mp hch with h | h
          · subst h
            exact hab.1
          rcases List.mem_cons.mp h with h2 | h2
          · subst h2
            exact hab.2
          · exact hrest ch h2
        simp only [List.getLastD_cons]
      · rw [if_neg hrest, if_neg ?hcnd2]
        case hcnd2 =>
          rintro ⟨-, hall⟩
          exact hrest fun ch hch =>
            hall ch (List.mem_cons_of_mem a (List.mem_cons_of_mem b hch))
    · rw [if_neg hab, if_neg ?hcnd3]
      case hcnd3 =>
        rintro ⟨-, hall⟩
        exact hab ⟨hall a (by simp), hall b (by simp)⟩

/-- C5.  `fix_heading_line_length` acts on each line of the input
independently: a line consisting solely of 3 or more characters drawn from
the union of the characters of `title_order` is replaced by exactly 4
repetitions of "that character" (the capture of the regex group, i.e. the
line's last character — for the ordinary case of a uniform line, the line's
character); every other line is unchanged. -/
theorem c5_heading_line_collapse (cfg : RstFormatterConfig) (s : Str) :
    splitNl (fix_heading_line_length cfg s) =
      (splitNl s).map (fun l =>
        if 3 ≤ l.length ∧ ∀ ch ∈ l, ch ∈ headingChars cfg then
          List.replicate 4 (l.getLastD ' ')
        else l) := by
  have hmap : ∀ l ∈ splitNl s, '\n' ∉ fixHeadingLine (headingChars cfg) l := by
    intro l hl
    rw [fixHeadingLine, matchHeadingLine_eq]
    split
    case h_1 ch hsome =>
      intro hmem
      rw [ite_eq_iff] at hsome
      rcases hsome with ⟨h, hval⟩ | ⟨_, hval⟩
      · have hlne : l ≠ [] := by
          intro h0
          subst h0
          simp at h
        have hlast : l.getLastD ' ' ∈ l := getLastD_mem_of_ne_nil hlne ' '
        have h2 := List.eq_of_mem_replicate hmem
        have h3 : ch = l.getLastD ' ' := by
          injection hval.symm
        rw [h3] at h2
        exact splitNl_no_nl s l hl (h2 ▸ hlast)
      · exact absurd hval.symm (by simp)
    case h_2 => exact splitNl_no_nl s l hl
  rw [fix_heading_line_length]
  show (List.intercalate ['\n']
      ((splitNl s).map (fixHeadingLine (headingChars cfg)))).splitOn '\n' = _
  rw [List.splitOn_intercalate _ '\n'
    (by
      intro l hl
      obtain ⟨l0, hl0, rfl⟩ := List.mem_map.mp hl
      exact hmap l0 hl0)
    (by
      intro hemp
      exact splitNl_ne_nil s (List.map_eq_nil_iff.mp hemp))]
  apply List.map_congr_left
  intro l hl
  rw [fixHeadingLine, matchHeadingLine_eq]
  by_cases hcond : 3 ≤ l.length ∧ ∀ ch ∈ l, ch ∈ headingChars cfg
  · rw [if_pos hcond, if_pos hcond]
  · rw [if_neg hcond, if_neg hcond]

/-- C10.  `format_rst` runs the parse and the render inside
`monkeypatch_directives_handler`; whatever the body does to the globals —
including raising, since the body's resulting global state is restored on
both the normal and the exceptional path by the `finally` block — the
directive registry and the directive-block parse function afterwards equal
their values from before the call; every other global (`other`) keeps
whatever the body left, and the body itself runs against the patched
registry and parse function. -/
theorem c10_monkeypatch_restored {ρ π σ α : Type} (patchedReg : ρ) (patchedParse : π)
    (body : DocutilsGlobals ρ π σ → Except String α × DocutilsGlobals ρ π σ)
    (g : DocutilsGlobals ρ π σ) :
    (monkeypatch_directives_handler patchedReg patchedParse body g).2.directivesReg =
      g.directivesReg ∧
    (monkeypatch_directives_handler patchedReg patchedParse body g).2.parseDirectiveBlock =
      g.parseDirectiveBlock ∧
    (monkeypatch_directives_handler patchedReg patchedParse body g).2.other =
      (body { g with directivesReg := patchedReg,
                     parseDirectiveBlock := patchedParse }).2.other ∧
    (monkeypatch_directives_handler patchedReg patchedParse body g).1 =
      (body { g with directivesReg := patchedReg,
                     parseDirectiveBlock := patchedParse }).1 :=
  ⟨rfl, rfl, rfl, rfl⟩

/-- `intercalate` over a two-or-more element list. -/
theorem intercalate_cons2 (sep : Str) (x : Str) (ys : List Str) (h : ys ≠ []) :
    List.intercalate sep (x :: ys) = x ++ sep ++ List.intercalate sep ys := by
  cases ys with
  | nil => exact absurd rfl h
  | cons y ys' =>
    simp [List.intercalate, List.append_assoc]

/-- `intercalate` over a singleton. -/
theorem intercalate_single (sep : Str) (x : Str) :
    List.intercalate sep [x] = x := by
  simp [List.intercalate]

/-- Appending to the last line extends the joined text. -/
theorem intercalate_update_last (sep : Str) (done : List Str) (cur w : Str) :
    List.intercalate sep (done ++ [cur ++ w]) =
      List.intercalate sep (done ++ [cur]) ++ w := by
  induction done with
  | nil => simp [intercalate_single]
  | cons d ds ih =>
    rw [List.cons_append, intercalate_cons2 sep d _ (by simp),
        List.cons_append, intercalate_cons2 sep d _ (by simp), ih]
    simp [List.append_assoc]

/-- Appending a separator-element to a nonempty list of lines. -/
theorem intercalate_snoc (sep : Str) (xs : List Str) (y : Str) (hxs : xs ≠ []) :
    List.intercalate sep (xs ++ [y]) = List.intercalate sep xs ++ sep ++ y := by
  induction xs with
  | nil => exact absurd rfl hxs
  | cons x xs' ih =>
    cases xs' with
    | nil => simp [intercalate_single, intercalate_cons2]
    | cons z zs =>
      rw [List.cons_append, intercalate_cons2 sep x _ (by simp),
          intercalate_cons2 sep x _ (by simp), ih (by simp)]
      simp [List.append_assoc]

/-- Appending `k` newline characters appends `k` empty lines. -/
theorem intercalate_add_nls (k : Nat) (ls : List Str) (h : ls ≠ []) :
    List.intercalate ['\n'] (ls ++ List.replicate k []) =
      List.intercalate ['\n'] ls ++ List.replicate k '\n' := by
  induction k with
  | zero => simp
  | succ k ih =>
    rw [List.replicate_succ' k, ← List.append_assoc,
        intercalate_snoc _ _ _ (by
          intro hemp
          exact h (List.append_eq_nil.mp hemp).1),
        ih, List.replicate_succ' k]
    simp [List.append_assoc]

/-- The separating space inserted before a word is at most one character and
never a newline. -/
theorem sep_small (w : Str) :
    (if w.head? = some ',' ∨ w.head? = some '.' then ([] : Str) else [' ']).length ≤ 1 ∧
    '\n' ∉ (if w.head? = some ',' ∨ w.head? = some '.' then ([] : Str) else [' ']) := by
  split <;> simp

/-- Word-wrapping preserves the line-width invariant, provided every word is
a known unit containing no newline. -/
theorem append_word_wrap_inv (cfg : RstFormatterConfig) (U : List Str) :
    ∀ (ws : List Str) (st : TState),
      (∀ w ∈ ws, w ∈ U ∧ '\n' ∉ w) →
      WrapInv cfg U st → WrapInv cfg U (append_word_wrap cfg st ws) := by
  intro ws
  induction ws with
  | nil =>
    intro st _ hinv
    rw [append_word_wrap]
    exact hinv
  | cons w ws ih =>
    intro st hws hinv
    rw [append_word_wrap]
    by_cases hw0 : w = []
    · rw [if_pos hw0]
      exact ih st (fun x hx => hws x (List.mem_cons_of_mem w hx)) hinv
    · rw [if_neg hw0]
      dsimp only
      obtain ⟨hwU, hwnl⟩ := hws w (List.mem_cons_self w ws)
      obtain ⟨done, cur, hout, hdone, hcnl, hclen, hcgood⟩ := hinv
      have hindnl : '\n' ∉ indentStr st.indent_level ++ w := by
        intro hmem
        rcases List.mem_append.mp hmem with h | h
        · exact absurd (List.eq_of_mem_replicate h) (by decide)
        · exact hwnl h
      have hcurgood : GoodLine cfg U cur := by
        rcases hcgood with h | h
        · exact Or.inl (le_trans hclen h)
        · exact h
      by_cases hg : cfg.maxLineLength < st.line_length + 1 + w.length
      · rw [if_pos hg, if_pos (show
          ({ st with output := st.output ++ ['\n'], line_length := 0 } :
            TState).line_length = 0 from rfl)]
        have key : WrapInvO cfg U
            (st.output ++ ['\n'] ++ indentStr st.indent_level ++ w)
            (0 + (indentStr st.indent_level).length + w.length) := by
          refine ⟨done ++ [cur], indentStr st.indent_level ++ w, ?_, ?_, hindnl, ?_, ?_⟩
          · rw [hout, intercalate_snoc ['\n'] (done ++ [cur])
              (indentStr st.indent_level ++ w) (by simp)]
            simp [List.append_assoc]
          · intro l hl
            rcases List.mem_append.mp hl with h | h
            · exact hdone l h
            · rw [List.mem_singleton.mp h]
              exact ⟨hcnl, hcurgood⟩
          · simp
          · exact Or.inr (Or.inr ⟨w, hwU, (2 * st.indent_level).toNat, rfl⟩)
        exact ih _ (fun x hx => hws x (List.mem_cons_of_mem w hx)) key
      · rw [if_neg hg]
        by_cases hll : st.line_length = 0
        · rw [if_pos hll]
          have hcur0 : cur = [] := by
            rw [hll] at hclen
            exact List.eq_nil_of_length_eq_zero (Nat.le_zero.mp hclen)
          have key : WrapInvO cfg U (st.output ++ indentStr st.indent_level ++ w)
              (st.line_length + (indentStr st.indent_level).length + w.length) := by
            refine ⟨done, indentStr st.indent_level ++ w, ?_, hdone, hindnl, ?_, ?_⟩
            · have h2 : List.intercalate ['\n']
                  (done ++ [([] : Str) ++ (indentStr st.indent_level ++ w)]) =
                  List.intercalate ['\n'] (done ++ [([] : Str)]) ++
                    (indentStr st.indent_level ++ w) :=
                intercalate_update_last _ _ _ _
              rw [hout, hcur0]
              simpa [List.append_assoc] using h2.symm
            · simp [hll]
            · exact Or.inr (Or.inr ⟨w, hwU, (2 * st.indent_level).toNat, rfl⟩)
          exact ih _ (fun x hx => hws x (List.mem_cons_of_mem w hx)) key
        · rw [if_neg hll]
          obtain ⟨hsl, hsnl⟩ := sep_small w
          have key : WrapInvO cfg U (st.output ++
              (if w.head? = some ',' ∨ w.head? = some '.' then ([] : Str) else [' ']) ++ w)
              (st.line_length + 1 + w.length) := by
            refine ⟨done, cur ++
              ((if w.head? = some ',' ∨ w.head? = some '.' then ([] : Str) else [' ']) ++ w),
              ?_, hdone, ?_, ?_, ?_⟩
            · rw [hout, List.append_assoc, ← intercalate_update_last]
            · intro hmem
              rcases List.mem_append.mp hmem with h | h
              · exact hcnl h
              · rcases List.mem_append.mp h with h2 | h2
                · exact hsnl h2
                · exact hwnl h2
            · rw [List.length_append, List.length_append]
              omega
            · exact Or.inl (by omega)
          exact ih _ (fun x hx => hws x (List.mem_cons_of_mem w hx)) key

/-- Appending a positive number of newlines to an invariant-satisfying output
closes the current line (which is good) and resets the cursor. -/
theorem wrapInvO_newlines (cfg : RstFormatterConfig) (U : List Str)
    (out : Str) (ll k : Nat) (hk : 0 < k) (h : WrapInvO cfg U out ll) :
    WrapInvO cfg U (out ++ List.replicate k '\n') 0 := by
  obtain ⟨done, cur, hout, hdone, hcnl, hclen, hcgood⟩ := h
  have hcurgood : GoodLine cfg U cur := by
    rcases hcgood with h1 | h1
    · exact Or.inl (le_trans hclen h1)
    · exact h1
  refine ⟨done ++ [cur] ++ List.replicate (k - 1) ([] : Str), [], ?_, ?_, by simp,
    by simp, Or.inl (Nat.zero_le _)⟩
  · have hrep : List.replicate (k - 1) ([] : Str) ++ [([] : Str)] =
        List.replicate k ([] : Str) := by
      rw [← List.replicate_succ' (k - 1)]
      congr 1
      omega
    rw [hout, ← intercalate_add_nls k (done ++ [cur]) (by simp)]
    simp only [List.append_assoc, hrep]
  · intro l hl
    rcases List.mem_append.mp hl with h1 | h1
    · rcases List.mem_append.mp h1 with h2 | h2
      · exact hdone l h2
      · rw [List.mem_singleton.mp h2]
        exact ⟨hcnl, hcurgood⟩
    · rw [List.eq_of_mem_replicate h1]
      exact ⟨by simp, Or.inl (Nat.zero_le _)⟩

/-- `append` preserves the line-width invariant when every word it routes to
the output is a newline-free unit. -/
theorem appendT_inv (cfg : RstFormatterConfig) (U : List Str)
    (st st' : TState) (text : Option (List Str)) (k : Nat)
    (hws : ∀ ws, text = some ws → ∀ w ∈ ws, w ∈ U ∧ '\n' ∉ w)
    (hinv : WrapInv cfg U st)
    (h : appendT cfg st text k = .ok st') : WrapInv cfg U st' := by
  cases hhs : st.hold_space with
  | nil =>
    simp only [appendT, hhs] at h
    cases text with
    | none =>
      by_cases hk : 0 < k
      · rw [if_pos hk] at h
        injection h with h2
        subst h2
        exact wrapInvO_newlines cfg U _ _ k hk hinv
      · rw [if_neg hk] at h
        injection h with h2
        subst h2
        exact hinv
    | some ws =>
      have hinv1 : WrapInv cfg U (append_word_wrap cfg st ws) :=
        append_word_wrap_inv cfg U ws st (hws ws rfl) hinv
      by_cases hk : 0 < k
      · rw [if_pos hk] at h
        injection h with h2
        subst h2
        exact wrapInvO_newlines cfg U _ _ k hk hinv1
      · rw [if_neg hk] at h
        injection h with h2
        subst h2
        exact hinv1
  | cons hh tt =>
    simp only [appendT, hhs] at h
    by_cases hk : k ≠ 0
    · rw [if_pos hk] at h
      exact absurd h (by simp)
    · rw [if_neg hk] at h
      cases text with
      | none =>
        injection h with h2
        subst h2
        exact hinv
      | some ws =>
        cases ws with
        | nil =>
          injection h with h2
          subst h2
          exact hinv
        | cons w ws2 =>
          injection h with h2
          subst h2
          exact hinv

/-- Every single output-layer operation preserves the line-width invariant. -/
theorem runOp_inv (cfg : RstFormatterConfig) (U : List Str) (st st' : TState)
    (op : ROp)
    (hop : ∀ ws k, op = .app (some ws) k → ∀ w ∈ ws, w ∈ U ∧ '\n' ∉ w)
    (hinv : WrapInv cfg U st) (h : runOp cfg st op = .ok st') :
    WrapInv cfg U st' := by
  cases op with
  | app t k =>
    exact appendT_inv cfg U st st' t k (fun ws hw => hop ws k (by rw [hw])) hinv h
  | enterHold =>
    injection h with h2
    subst h2
    exact hinv
  | exitHold =>
    simp only [runOp, exit_nonbreakable_element] at h
    cases hhs : st.hold_space with
    | nil =>
      rw [hhs] at h
      exact absurd h (by simp)
    | cons hh tt =>
      rw [hhs] at h
      injection h with h2
      subst h2
      exact hinv
  | indentInc =>
    injection h with h2
    subst h2
    exact hinv
  | indentDec =>
    injection h with h2
    subst h2
    exact hinv

/-- A whole operation sequence preserves the line-width invariant. -/
theorem runOps_inv (cfg : RstFormatterConfig) (U : List Str) :
    ∀ (ops : List ROp) (st st' : TState),
      (∀ ws k, ROp.app (some ws) k ∈ ops → ∀ w ∈ ws, w ∈ U ∧ '\n' ∉ w) →
      WrapInv cfg U st → runOps cfg ops st = .ok st' → WrapInv cfg U st' := by
  intro ops
  induction ops with
  | nil =>
    intro st st' _ hinv h
    injection h with h2
    subst h2
    exact hinv
  | cons op ops ih =>
    intro st st' hop hinv h
    rw [runOps] at h
    rcases except_bind_ok.mp h with ⟨st1, h1, h2⟩
    exact ih st1 st' (fun ws k hm => hop ws k (List.mem_cons_of_mem _ hm))
      (runOp_inv cfg U st st1 op
        (fun ws k heq => hop ws k (heq ▸ List.mem_cons_self op ops)) hinv h1)
      h2

/-- Each word of an `append` operation occurring in a sequence is among the
sequence's units. -/
theorem opWords_mem (ops : List ROp) (ws : List Str) (k : Nat)
    (h : ROp.app (some ws) k ∈ ops) : ∀ w ∈ ws, w ∈ opWords ops := by
  induction ops with
  | nil => cases h
  | cons op ops ih =>
    intro w hw
    rcases List.mem_cons.mp h with h1 | h1
    · rw [← h1]
      exact List.mem_append.mpr (Or.inl hw)
    · have hmem : w ∈ opWords ops := ih h1 w hw
      cases op with
      | app t k2 =>
        cases t with
        | none => exact hmem
        | some ws2 => exact List.mem_append.mpr (Or.inr hmem)
      | enterHold => exact hmem
      | exitHold => exact hmem
      | indentInc => exact hmem
      | indentDec => exact hmem

/-- The fresh translator state satisfies the line-width invariant. -/
theorem wrapInv_init (cfg : RstFormatterConfig) (U : List Str) :
    WrapInv cfg U initState :=
  ⟨[], [], rfl, by simp, by simp, by simp, Or.inl (Nat.zero_le _)⟩

/-- C3.  Line-width bound: for every config and every sequence of output
operations run from the fresh state (the words passed to `append` being
newline-free, as the translator always passes `split()` tokens), every line
of the produced output has length at most `max_line_length`, except that a
line holding a single non-breakable unit (one word given to `append`,
possibly behind its indentation prefix) may exceed the bound: the oversized
unit is emitted whole, never truncated or split. -/
theorem c3_line_width_bound (cfg : RstFormatterConfig) (ops : List ROp)
    (st' : TState)
    (hnl : ∀ w ∈ opWords ops, '\n' ∉ w)
    (h : runOps cfg ops initState = .ok st') :
    ∀ l ∈ splitNl st'.output,
      l.length ≤ cfg.maxLineLength ∨
      ∃ u ∈ opWords ops, ∃ k, l = List.replicate k ' ' ++ u := by
  have hinv : WrapInv cfg (opWords ops) st' := by
    refine runOps_inv cfg (opWords ops) ops initState st' ?_
      (wrapInv_init cfg (opWords ops)) h
    intro ws k hm w hw
    exact ⟨opWords_mem ops ws k hm w hw, hnl w (opWords_mem ops ws k hm w hw)⟩
  obtain ⟨done, cur, hout, hdone, hcnl, hclen, hcgood⟩ := hinv
  have hsplit : splitNl st'.output = done ++ [cur] := by
    rw [hout]
    refine List.splitOn_intercalate _ '\n' ?_ (by simp)
    intro l hl
    rcases List.mem_append.mp hl with h1 | h1
    · exact (hdone l h1).1
    · rw [List.mem_singleton.mp h1]
      exact hcnl
  intro l hl
  rw [hsplit] at hl
  rcases List.mem_append.mp hl with h1 | h1
  · exact (hdone l h1).2
  · rw [List.mem_singleton.mp h1]
    rcases hcgood with h2 | h2
    · exact Or.inl (le_trans hclen h2)
    · exact h2

/-- The line-width bound at a concrete run: appending the word `hello`
followed by one newline from the fresh state under the default config. -/
theorem c3_line_width_bound_witness :
    (str "hello").length ≤ defaultConfig.maxLineLength ∨
    ∃ u ∈ opWords [ROp.app (some [str "hello"]) 1], ∃ k,
      str "hello" = List.replicate k ' ' ++ u :=
  c3_line_width_bound defaultConfig [ROp.app (some [str "hello"]) 1]
    (TState.mk (str "hello" ++ ['\n']) [] 0 0 0 [] false)
    (by decide) (by decide) (str "hello") (by decide)

/-- Non-whitespace filtering distributes over concatenation. -/
theorem nonWsChars_append (a b : Str) :
    nonWsChars (a ++ b) = nonWsChars a ++ nonWsChars b := by
  simp [nonWsChars]

/-- Space runs carry no non-whitespace characters. -/
theorem nonWsChars_spaces (k : Nat) : nonWsChars (List.replicate k ' ') = [] := by
  rw [nonWsChars, List.filter_eq_nil_iff]
  intro a ha
  rw [List.eq_of_mem_replicate ha]
  decide

/-- Newline runs carry no non-whitespace characters. -/
theorem nonWsChars_nls (k : Nat) : nonWsChars (List.replicate k '\n') = [] := by
  rw [nonWsChars, List.filter_eq_nil_iff]
  intro a ha
  rw [List.eq_of_mem_replicate ha]
  decide

/-- A single newline carries no non-whitespace characters. -/
theorem nonWsChars_nl : nonWsChars ['\n'] = [] := by decide

/-- Indentation prefixes carry no non-whitespace characters. -/
theorem nonWsChars_indent (lvl : Int) : nonWsChars (indentStr lvl) = [] :=
  nonWsChars_spaces _

/-- The word-wrapping writer adds exactly the words' non-whitespace
characters to the output, in order. -/
theorem aww_chars (cfg : RstFormatterConfig) :
    ∀ (ws : List Str) (st : TState),
      nonWsChars (append_word_wrap cfg st ws).output =
        nonWsChars st.output ++ (ws.map nonWsChars).flatten := by
  intro ws
  induction ws with
  | nil =>
    intro st
    rw [append_word_wrap]
    simp
  | cons w ws ih =>
    intro st
    rw [append_word_wrap]
    by_cases hw0 : w = []
    · rw [if_pos hw0, ih st, hw0]
      simp [nonWsChars]
    · rw [if_neg hw0]
      dsimp only
      by_cases hg : cfg.maxLineLength < st.line_length + 1 + w.length
      · rw [if_pos hg, if_pos (show
          ({ st with output := st.output ++ ['\n'], line_length := 0 } :
            TState).line_length = 0 from rfl)]
        simp only [ih, List.map_cons, List.flatten_cons]
        rw [show ((st.output ++ ['\n']) ++ indentStr st.indent_level ++ w) =
          st.output ++ (['\n'] ++ indentStr st.indent_level ++ w) by
            simp [List.append_assoc]]
        rw [nonWsChars_append, nonWsChars_append, nonWsChars_append,
          nonWsChars_indent, nonWsChars_nl]
        simp [List.append_assoc]
      · rw [if_neg hg]
        by_cases hll : st.line_length = 0
        · rw [if_pos hll]
          simp [ih, nonWsChars_append, nonWsChars_indent, List.append_assoc]
        · rw [if_neg hll]
          have hsep : nonWsChars
              (if w.head? = some ',' ∨ w.head? = some '.' then ([] : Str)
               else [' ']) = [] := by
            split <;> decide
          simp [ih, nonWsChars_append, hsep, List.append_assoc]

/-- Joining the tokens of a maximal-run split returns the characters the
separator predicate rejects, in order. -/
theorem splitRunsBy_flatten (p : Char → Bool) :
    ∀ s : Str, (splitRunsBy p s).flatten = s.filter (fun c => !(p c)) := by
  intro s
  induction s with
  | nil => rfl
  | cons c rest ih =>
    simp only [splitRunsBy]
    by_cases hc : p c
    · rw [if_pos hc]
      have hfc : List.filter (fun x => !(p x)) (c :: rest) =
          List.filter (fun x => !(p x)) rest := by
        simp [List.filter_cons, hc]
      rw [hfc]
      cases rest with
      | nil => simp [splitRunsBy]
      | cons d rest2 =>
        dsimp only
        by_cases hd : p d
        · rw [if_pos hd]
          exact ih
        · rw [if_neg hd]
          simpa using ih
    · rw [if_neg hc]
      have hfc : List.filter (fun x => !(p x)) (c :: rest) =
          c :: List.filter (fun x => !(p x)) rest := by
        simp [List.filter_cons, hc]
      rw [hfc]
      cases hr : splitRunsBy p rest with
      | nil =>
        dsimp only
        rw [hr] at ih
        simp only [List.flatten_nil] at ih
        simp [← ih]
      | cons h t =>
        dsimp only
        rw [hr] at ih
        rw [List.flatten_cons] at ih ⊢
        rw [List.cons_append, ih]

/-- The tokens of `re.split(r"[ \n]+", s)` contain exactly the
non-whitespace characters of `s`, in order. -/
theorem reSplit_chars (s : Str) :
    ((reSplitSpaceNl s).map nonWsChars).flatten = nonWsChars s := by
  have h1 : ∀ l : List Str, (l.map nonWsChars).flatten = nonWsChars l.flatten := by
    intro l
    induction l with
    | nil => rfl
    | cons a t ih => simp [nonWsChars_append, ih]
  rw [h1, reSplitSpaceNl, splitRunsBy_flatten]
  simp [nonWsChars, List.filter_filter]

/-- With no hold space, `append` adds exactly the words' non-whitespace
characters to the output and keeps the hold space empty. -/
theorem appendT_chars_out {cfg : RstFormatterConfig} {st st' : TState}
    {ws : List Str} {k : Nat} (hh : st.hold_space = [])
    (h : appendT cfg st (some ws) k = .ok st') :
    st'.hold_space = [] ∧
    nonWsChars st'.output = nonWsChars st.output ++ (ws.map nonWsChars).flatten := by
  simp only [appendT, hh] at h
  obtain ⟨out, ll, ha⟩ := aww_frame cfg ws st
  by_cases hk : 0 < k
  · rw [if_pos hk] at h
    injection h with h2
    subst h2
    constructor
    · simp [ha, hh]
    · simp [nonWsChars_append, nonWsChars_nls, aww_chars cfg ws st]
  · rw [if_neg hk] at h
    injection h with h2
    subst h2
    constructor
    · simp [ha, hh]
    · exact aww_chars cfg ws st

/-- With no hold space, `append` without text only emits whitespace: the
non-whitespace output characters and the empty hold space are unchanged. -/
theorem appendT_chars_none {cfg : RstFormatterConfig} {st st' : TState} {k : Nat}
    (hh : st.hold_space = []) (h : appendT cfg st none k = .ok st') :
    st'.hold_space = [] ∧ nonWsChars st'.output = nonWsChars st.output := by
  simp only [appendT, hh] at h
  by_cases hk : 0 < k
  · rw [if_pos hk] at h
    injection h with h2
    subst h2
    exact ⟨rfl, by simp [nonWsChars_append, nonWsChars_nls]⟩
  · rw [if_neg hk] at h
    injection h with h2
    subst h2
    exact ⟨hh, rfl⟩

/-- Inside a hold space, `append` with no newline request leaves everything
but the innermost hold entry unchanged. -/
theorem appendT_chars_hold {cfg : RstFormatterConfig} {st st' : TState}
    {t : Option (List Str)} {X : List Str} {T : List (List Str)}
    (hh : st.hold_space = X :: T)
    (h : appendT cfg st t 0 = .ok st') :
    ∃ Y, st' = { st with hold_space := Y :: T } := by
  simp only [appendT, hh] at h
  rw [if_neg (by simp)] at h
  cases t with
  | none =>
    injection h with h2
    subst h2
    exact ⟨X, by rw [← hh]⟩
  | some ws =>
    cases ws with
    | nil =>
      injection h with h2
      subst h2
      exact ⟨X, by rw [← hh]⟩
    | cons w ws2 =>
      injection h with h2
      subst h2
      exact ⟨X ++ w :: ws2, rfl⟩

/-- Visiting a list of plain-text nodes inside a hold space leaves everything
but the innermost hold entry unchanged. -/
theorem visitList_texts_hold (cfg : RstFormatterConfig) :
    ∀ (kids : List RNode) (st : TState) (X : List Str) (T : List (List Str))
      (st2 : TState),
      (kids.all (fun k => match k with | .text _ => true | _ => false)) = true →
      st.hold_space = X :: T →
      visitList cfg kids st = .ok st2 →
      ∃ Y, st2 = { st with hold_space := Y :: T } := by
  intro kids
  induction kids with
  | nil =>
    intro st X T st2 _ hh h
    injection h with h2
    subst h2
    exact ⟨X, by rw [← hh]⟩
  | cons kid kids ih =>
    intro st X T st2 hall hh h
    rw [List.all_cons, Bool.and_eq_true] at hall
    rw [visitList] at h
    rcases except_bind_ok.mp h with ⟨st1, h1, h2⟩
    have hs : ∃ s, kid = RNode.text s := by
      cases kid
      case text s => exact ⟨s, rfl⟩
      all_goals exact Bool.noConfusion hall.1
    obtain ⟨s, rfl⟩ := hs
    rw [visitNode] at h1
    obtain ⟨Y1, hY1⟩ := appendT_chars_hold hh h1
    subst hY1
    obtain ⟨Y2, hY2⟩ := ih { st with hold_space := Y1 :: T } Y1 T st2 hall.2 rfl h2
    exact ⟨Y2, hY2⟩

/-- Visiting one inline node (plain text or a non-breakable span of texts)
with empty hold space appends exactly the node's source non-whitespace
characters to the output. -/
theorem visitNode_inline_chars (cfg : RstFormatterConfig) (n : RNode)
    (hn : InlineOk n = true) :
    ∀ (st st' : TState), st.hold_space = [] →
      visitNode cfg n st = .ok st' →
      st'.hold_space = [] ∧
      nonWsChars st'.output =
        nonWsChars st.output ++ nonWsChars (inlineChars n) := by
  cases n
  case text s =>
    intro st st' hh h
    rw [visitNode] at h
    obtain ⟨h1, h2⟩ := appendT_chars_out hh h
    refine ⟨h1, ?_⟩
    rw [h2, reSplit_chars]
    rfl
  case nonbreakable raw kids =>
    intro st st' hh h
    rw [visitNode] at h
    rcases except_bind_ok.mp h with ⟨st2, h1, h2⟩
    have hkids : (kids.all (fun k =>
        match k with | .text _ => true | _ => false)) = true := by
      simpa [InlineOk] using hn
    obtain ⟨Y, hY⟩ := visitList_texts_hold cfg kids
      (enter_nonbreakable_element st) [] st.hold_space st2 hkids rfl h1
    subst hY
    obtain ⟨g1, g2⟩ := appendT_chars_out hh h2
    refine ⟨g1, ?_⟩
    rw [g2]
    simp [inlineChars]
  all_goals exact fun st st' _ _ => Bool.noConfusion hn

/-- Visiting a list of inline nodes with empty hold space appends exactly
their concatenated non-whitespace characters. -/
theorem visitList_inline_chars (cfg : RstFormatterConfig) :
    ∀ (kids : List RNode) (st st' : TState),
      kids.all InlineOk = true → st.hold_space = [] →
      visitList cfg kids st = .ok st' →
      st'.hold_space = [] ∧
      nonWsChars st'.output =
        nonWsChars st.output ++ nonWsChars (kids.map inlineChars).flatten := by
  intro kids
  induction kids with
  | nil =>
    intro st st' _ hh h
    injection h with h2
    subst h2
    exact ⟨hh, by simp [nonWsChars]⟩
  | cons kid kids ih =>
    intro st st' hall hh h
    rw [List.all_cons, Bool.and_eq_true] at hall
    rw [visitList] at h
    rcases except_bind_ok.mp h with ⟨st1, h1, h2⟩
    obtain ⟨g1, g2⟩ := visitNode_inline_chars cfg kid hall.1 st st1 hh h1
    obtain ⟨g3, g4⟩ := ih st1 st' hall.2 g1 h2
    refine ⟨g3, ?_⟩
    rw [g4, g2]
    simp [nonWsChars_append, List.append_assoc]

/-- Rendering one paragraph of inline content with empty hold space appends
exactly the paragraph's non-whitespace characters. -/
theorem visitNode_paragraph_chars (cfg : RstFormatterConfig) (inl : List RNode)
    (hinl : inl.all InlineOk = true) :
    ∀ (st st' : TState), st.hold_space = [] →
      visitNode cfg (.paragraph inl) st = .ok st' →
      st'.hold_space = [] ∧
      nonWsChars st'.output =
        nonWsChars st.output ++ nonWsChars (paraChars (.paragraph inl)) := by
  intro st st' hh h
  rw [visitNode] at h
  rcases except_bind_ok.mp h with ⟨st1, h1, hrest⟩
  have hapn : st1.hold_space = [] ∧ nonWsChars st1.output = nonWsChars st.output := by
    unfold append_possible_newline at h1
    split at h1
    · rcases except_map_ok.mp h1 with ⟨a, ha, hb⟩
      obtain ⟨p1, p2⟩ := appendT_chars_none hh ha
      subst hb
      exact ⟨p1, p2⟩
    · injection h1 with h2
      subst h2
      exact ⟨hh, rfl⟩
  rcases except_bind_ok.mp hrest with ⟨st2, h2, hrest2⟩
  obtain ⟨g1, g2⟩ := visitList_inline_chars cfg inl st1 st2 hinl hapn.1 h2
  rcases except_bind_ok.mp hrest2 with ⟨st3, h3, h4⟩
  obtain ⟨q1, q2⟩ := appendT_chars_none g1 h3
  have h5 := pure_ok h4
  have hh' : st'.hold_space = st3.hold_space := by rw [← h5]
  have ho' : nonWsChars st'.output = nonWsChars st3.output := by rw [← h5]
  refine ⟨hh'.trans q1, ?_⟩
  rw [ho', q2, g2, hapn.2]
  rfl

/-- Rendering a list of paragraphs of inline content with empty hold space
appends exactly their concatenated non-whitespace characters. -/
theorem visitList_para_chars (cfg : RstFormatterConfig) :
    ∀ (kids : List RNode) (st st' : TState),
      (kids.all (fun k => match k with
        | .paragraph inl => inl.all InlineOk
        | _ => false)) = true →
      st.hold_space = [] →
      visitList cfg kids st = .ok st' →
      nonWsChars st'.output =
        nonWsChars st.output ++ nonWsChars (kids.map paraChars).flatten := by
  intro kids
  induction kids with
  | nil =>
    intro st st' _ hh h
    injection h with h2
    subst h2
    simp [nonWsChars]
  | cons kid kids ih =>
    intro st st' hall hh h
    rw [List.all_cons, Bool.and_eq_true] at hall
    rw [visitList] at h
    rcases except_bind_ok.mp h with ⟨st1, h1, h2⟩
    have hs : ∃ inl, kid = RNode.paragraph inl ∧ inl.all InlineOk = true := by
      cases kid
      case paragraph inl => exact ⟨inl, rfl, hall.1⟩
      all_goals exact Bool.noConfusion hall.1
    obtain ⟨inl, rfl, hinl⟩ := hs
    obtain ⟨g1, g2⟩ := visitNode_paragraph_chars cfg inl hinl st st1 hh h1
    have g3 := ih st1 st' hall.2 g1 h2
    rw [g3, g2]
    simp [nonWsChars_append, List.append_assoc]

/-- C2 (amended).  Content preservation in character form: for a document of
paragraphs of inline content (plain text and non-breakable spans), a
successful render emits exactly the input's non-whitespace characters, in
order — only whitespace (spacing, wrapping, paragraph separation) changes.
The claim's stricter token-sequence form is refuted by
`c2_token_sequence_counterexample`: the writer glues a `,`/`.` token onto
the preceding word, merging two input tokens into one output token. -/
theorem c2_nonwhitespace_chars_preserved (cfg : RstFormatterConfig)
    (doc : RNode) (out : Str) (hdoc : ParaDoc doc = true)
    (h : render cfg doc = .ok out) :
    nonWsChars out = nonWsChars (docChars doc) := by
  cases doc
  case document kids =>
    rw [render] at h
    rcases except_map_ok.mp h with ⟨stf, hrun, hout⟩
    rw [visitNode] at hrun
    have hall : (kids.all (fun k => match k with
        | .paragraph inl => inl.all InlineOk
        | _ => false)) = true := by simpa [ParaDoc] using hdoc
    have g1 := visitList_para_chars cfg kids initState stf hall rfl hrun
    subst hout
    rw [g1]
    simp [initState, docChars, nonWsChars]
  all_goals exact Bool.noConfusion hdoc

/-- The character-preservation law at a concrete document: one paragraph
holding the text `ab cd`, rendered under the default config. -/
theorem c2_nonwhitespace_chars_preserved_witness :
    nonWsChars (str "ab cd" ++ ['\n']) =
      nonWsChars (docChars
        (RNode.document [RNode.paragraph [RNode.text (str "ab cd")]])) :=
  c2_nonwhitespace_chars_preserved defaultConfig
    (RNode.document [RNode.paragraph [RNode.text (str "ab cd")]])
    (str "ab cd" ++ ['\n']) (by decide) (by decide)
